import Mathlib

/-!
# Verification of the SynthGraphix micro-task platform core

Shallow embedding of the server-side core of the platform
(daily task allocation, task completion, referral/redemption ledger,
admin overrides) together with proofs and refutations of the
specification's claims.

Strings from the JavaScript source are modelled as `List Char`
(one entry per code point); the relational store is modelled as a
record of lists mirroring the SQLite tables created in
`src/server/src/db.js`.  `ORDER BY RANDOM() LIMIT 1` queries and the
in-memory Fisher-Yates shuffle consume an explicit oracle stream
`rand : List Nat` (an exhausted stream yields 0), so every operation
is a deterministic executable function of the state and the oracle.
-/

/-! ## Text normalization (`normalize` in src/server/src/tasks_transcription.js)

```js
function normalize(s) {
  return String(s || "")
    .replace(/\r/g, "")
    .replace(/[“”]/g, '"')
    .replace(/[’]/g, "'")
    .replace(/\s+/g, " ")
    .trim()
    .toLowerCase();
}
```
-/

namespace SGX

/-- The character class matched by JavaScript's `\s` (WhiteSpace and
LineTerminator productions), by code point. -/
def isJsWS (c : Char) : Bool :=
  c.toNat == 32 || c.toNat == 9 || c.toNat == 10 || c.toNat == 11 ||
  c.toNat == 12 || c.toNat == 13 || c.toNat == 0xa0 || c.toNat == 0x1680 ||
  (0x2000 ≤ c.toNat && c.toNat ≤ 0x200a) || c.toNat == 0x2028 ||
  c.toNat == 0x2029 || c.toNat == 0x202f || c.toNat == 0x205f ||
  c.toNat == 0x3000 || c.toNat == 0xfeff

/-- `.replace(/\r/g, "")`: delete every carriage return. -/
def removeCR (l : List Char) : List Char :=
  l.filter (fun c => !(c == '\r'))

/-- Pointwise action of `.replace(/[“”]/g, '"').replace(/[’]/g, "'")`:
both regexes are single-character classes, so the combined pass is a map. -/
def straightenChar (c : Char) : Char :=
  if c == '“' || c == '”' then '"'
  else if c == '’' then '\'' else c

def straighten (l : List Char) : List Char :=
  l.map straightenChar

/-- One pass of `.replace(/\s+/g, " ")`: `prevWS` records whether the
previous character belonged to a whitespace run whose single `' '` has
already been emitted. -/
def collapseGo (prevWS : Bool) : List Char → List Char
  | [] => []
  | c :: cs =>
    if isJsWS c then
      if prevWS then collapseGo true cs else ' ' :: collapseGo true cs
    else c :: collapseGo false cs

/-- `.replace(/\s+/g, " ")`: each maximal nonempty run of whitespace
becomes a single space. -/
def collapseWS (l : List Char) : List Char :=
  collapseGo false l

/-- Strip a trailing whitespace run (the tail half of `.trim()`). -/
def rtrimWS : List Char → List Char
  | [] => []
  | c :: cs =>
    match rtrimWS cs with
    | [] => if isJsWS c then [] else [c]
    | r => c :: r

/-- `.trim()`: strip leading and trailing whitespace. -/
def jsTrim (l : List Char) : List Char :=
  rtrimWS (l.dropWhile isJsWS)

/-- `.toLowerCase()` restricted to the ASCII range (the model of the
JavaScript call; no character appearing in this code base is affected
by the non-ASCII case mappings). -/
def lowerChar (c : Char) : Char :=
  if 65 ≤ c.toNat && c.toNat ≤ 90 then Char.ofNat (c.toNat + 32) else c

def toLowerList (l : List Char) : List Char :=
  l.map lowerChar

/-- The `normalize` pipeline from src/server/src/tasks_transcription.js. -/
def normalize (l : List Char) : List Char :=
  toLowerList (jsTrim (collapseWS (straighten (removeCR l))))

/-- `.trim()` on a whole string (used on referral codes at registration). -/
def jsTrimStr (s : String) : String :=
  String.mk (jsTrim s.data)

/-! ### Shape predicates used to characterise `normalize`'s image -/

/-- The list is empty or does not start with whitespace. -/
def headNotWS : List Char → Bool
  | [] => true
  | c :: _ => !isJsWS c

/-- The list is empty or does not end with whitespace. -/
def lastNotWS : List Char → Bool
  | [] => true
  | [c] => !isJsWS c
  | _ :: c :: cs => lastNotWS (c :: cs)

/-- Every whitespace character in the list is a plain space. -/
def spacesOnly (l : List Char) : Bool :=
  l.all (fun c => !isJsWS c || c == ' ')

/-- No two adjacent whitespace characters. -/
def noAdjWS : List Char → Bool
  | c :: c' :: cs => !(isJsWS c && isJsWS c') && noAdjWS (c' :: cs)
  | _ => true

/-- No curly quote characters. -/
def noCurly (l : List Char) : Bool :=
  l.all (fun c => !(c == '“' || c == '”' || c == '’'))

/-- Every character is a fixed point of `lowerChar`. -/
def lowerFixed (l : List Char) : Bool :=
  l.all (fun c => lowerChar c == c)

/-- Canonical form of `normalize`'s output. -/
def isNormalized (l : List Char) : Bool :=
  spacesOnly l && noAdjWS l && headNotWS l && lastNotWS l &&
  noCurly l && lowerFixed l

/-! ## Data model

One record field per SQLite table column actually read or written by
the modelled operations (src/server/src/db.js, plus the
`daily_task_assignments` table from src/server/src/tasks_transcription.js).
Authentication columns (password hashes, tokens) are external to the
core and omitted.  SQL `TEXT` timestamps are reduced to the values the
code derives from them: `daily_tasks.completed_at` to its null test and
`task_completions.created_at` to the Nairobi day extracted by
`date(datetime(created_at,'+3 hours'))`. -/

structure User where
  id : Nat
  username : String
  email : String
  referral_code : String
  referred_by : Option Nat
  balance_ksh : Int
  bonus_ksh : Int
deriving DecidableEq, Repr

structure Task where
  id : Nat
  type : String
  category : String
  reward_ksh : Int
  active : Bool
  task_type : String
  answer_text : List Char
deriving DecidableEq, Repr

structure DailyTaskRow where
  user_id : Nat
  day_key : String
  task_id : Nat
  completed : Bool
  answer_text : Option (List Char)
deriving DecidableEq, Repr

structure CompletionRow where
  user_id : Nat
  task_id : Nat
  reward_ksh : Int
  answer_text : Option (List Char)
  day : String
deriving DecidableEq, Repr

structure AssignRow where
  user_id : Nat
  day : String
  task_id : Nat
deriving DecidableEq, Repr

structure ReferralRow where
  referrer_id : Nat
  referred_user_id : Nat
  bonus_awarded_ksh : Int
deriving DecidableEq, Repr

structure Db where
  users : List User
  tasks : List Task
  daily_tasks : List DailyTaskRow
  task_completions : List CompletionRow
  daily_task_assignments : List AssignRow
  referrals : List ReferralRow
  bonus_redemptions : List (Nat × Int)
  activation_fees : List (Nat × Int)
  app_settings : List (String × String)
deriving DecidableEq, Repr

def digitVal (c : Char) : Option Nat :=
  if 48 ≤ c.toNat && c.toNat ≤ 57 then some (c.toNat - 48) else none

def parseDigits (acc : Nat) : List Char → Option Nat
  | [] => some acc
  | c :: cs =>
    match digitVal c with
    | some d => parseDigits (acc * 10 + d) cs
    | none => none

/-- Decimal integer parse: optional sign followed by digits.
(`parseInt`'s tolerance for leading whitespace and trailing junk is
not modelled; every setting the application writes is a plain decimal
string.) -/
def parseIntChars : List Char → Option Int
  | [] => none
  | '-' :: cs =>
    match cs with
    | [] => none
    | _ => (parseDigits 0 cs).map (fun n => -(n : Int))
  | cs => (parseDigits 0 cs).map (fun n => (n : Int))

/-- `getIntSetting(key, fallback)`: read `app_settings`, parse the
stored string, fall back when missing or unparsable. -/
def getIntSetting (db : Db) (key : String) (fallback : Int) : Int :=
  match db.app_settings.find? (fun kv => kv.1 == key) with
  | none => fallback
  | some kv =>
    match parseIntChars kv.2.data with
    | some n => n
    | none => fallback

def findUser (db : Db) (uid : Nat) : Option User :=
  db.users.find? (fun u => u.id == uid)

def bonusOf (db : Db) (uid : Nat) : Int :=
  match findUser db uid with
  | some u => u.bonus_ksh
  | none => 0

def balanceOf (db : Db) (uid : Nat) : Int :=
  match findUser db uid with
  | some u => u.balance_ksh
  | none => 0

/-- Number of `daily_tasks` rows stored for a (user, day_key) pair. -/
def countDT (db : Db) (uid : Nat) (day : String) : Nat :=
  (db.daily_tasks.filter (fun r => r.user_id == uid && r.day_key == day)).length

/-- The task ids assigned to a (user, day_key) pair, in insertion order. -/
def assignedIds (db : Db) (uid : Nat) (day : String) : List Nat :=
  (db.daily_tasks.filter (fun r => r.user_id == uid && r.day_key == day)).map
    (fun r => r.task_id)

/-- `AUTOINCREMENT` model: the id handed out for the next inserted user. -/
def nextUserId (db : Db) : Nat :=
  db.users.foldr (fun u m => max u.id m) 0 + 1

/-- Every `daily_tasks` row references an existing user and task (the
state left behind by the defensive cleanup sweep). -/
def wellFormedDb (db : Db) : Prop :=
  ∀ r ∈ db.daily_tasks,
    db.users.any (fun u => u.id == r.user_id) = true ∧
    db.tasks.any (fun t => t.id == r.task_id) = true

/-- Both monetary counters of every user are non-negative. -/
def nonnegCounters (db : Db) : Prop :=
  ∀ u ∈ db.users, 0 ≤ u.balance_ksh ∧ 0 ≤ u.bonus_ksh

/-- Every catalog task has a non-negative reward (true of every task
the seeding code inserts; there is no task-creating endpoint). -/
def rewardsNonneg (db : Db) : Prop :=
  ∀ t ∈ db.tasks, 0 ≤ t.reward_ksh

/-! ## Redemption ledger -/

inductive RedeemResult where
  | ok (redeemed balance bonus : Int)
  | thresholdNotMet
  | userNotFound
deriving DecidableEq, Repr

/-- `POST /redeem` (src/server/src/referrals.js, lines 58-85):
threshold and amount hard-coded to 1000, audit row appended to
`bonus_redemptions`. -/
def redeem (db : Db) (userId : Nat) : RedeemResult × Db :=
  match db.users.find? (fun u => u.id == userId) with
  | none => (.userNotFound, db)
  | some me =>
    if me.bonus_ksh < 1000 then (.thresholdNotMet, db)
    else
      let redeemAmount : Int := 1000
      let users1 := db.users.map (fun u =>
        if u.id == userId then
          { u with balance_ksh := u.balance_ksh + redeemAmount,
                   bonus_ksh := u.bonus_ksh - redeemAmount }
        else u)
      let db1 := { db with
        users := users1,
        bonus_redemptions := db.bonus_redemptions ++ [(userId, redeemAmount)] }
      match db1.users.find? (fun u => u.id == userId) with
      | some after => (.ok redeemAmount after.balance_ksh after.bonus_ksh, db1)
      | none => (.ok redeemAmount 0 0, db1)

/-- `POST /api/referrals/redeem` (src/unnamed/part_000, lines 723-738):
threshold and transfer amount read from `app_settings`
(defaults 1000/1000); no audit row. -/
def redeemApi (db : Db) (userId : Nat) : RedeemResult × Db :=
  match db.users.find? (fun u => u.id == userId) with
  | none => (.userNotFound, db)
  | some u =>
    let threshold := getIntSetting db "referral_redeem_threshold_ksh" 1000
    let transfer := getIntSetting db "referral_redeem_transfer_ksh" 1000
    if u.bonus_ksh < threshold then (.thresholdNotMet, db)
    else
      let users1 := db.users.map (fun v =>
        if v.id == userId then
          { v with balance_ksh := v.balance_ksh + transfer,
                   bonus_ksh := v.bonus_ksh - transfer }
        else v)
      let db1 := { db with users := users1 }
      match db1.users.find? (fun v => v.id == userId) with
      | some after => (.ok transfer after.balance_ksh after.bonus_ksh, db1)
      | none => (.ok transfer 0 0, db1)

/-! ## Registration (referral crediting) -/

structure RegisterReq where
  username : String
  email : String
  phone : String
  referral_code : String
deriving DecidableEq, Repr

inductive RegisterResult where
  | ok (uid : Nat)
  | emailOrUsernameTaken
  | emailTaken
  | usernameTaken
  | invalidReferralCode
deriving DecidableEq, Repr

/-- `POST /register` (src/unnamed/part_001, lines 43-103).
`myCode` is the referral code produced for the new user by
`generateReferralCode()` (external randomness).  Schema validation
(zod string lengths / email format) rejects before any read or write
and is not modelled.  The `INSERT OR IGNORE INTO referrals` relies on
the referrals table's constraint.  Modelled from the spec: the
referrals table (created outside src/) is unique per `referred_user`,
so the insert is skipped when a row for the referred user exists. -/
def registerAuth (db : Db) (req : RegisterReq) (myCode : String) :
    RegisterResult × Db :=
  match db.users.find? (fun u => u.email == req.email || u.username == req.username) with
  | some _ => (.emailOrUsernameTaken, db)
  | none =>
    let code := jsTrimStr req.referral_code
    if code == "" then
      let uid := nextUserId db
      let newUser : User := ⟨uid, req.username, req.email, myCode, none, 0, 0⟩
      (.ok uid, { db with users := db.users ++ [newUser] })
    else
      match db.users.find? (fun u => u.referral_code == code) with
      | none => (.invalidReferralCode, db)
      | some referrer =>
        let uid := nextUserId db
        let newUser : User :=
          ⟨uid, req.username, req.email, myCode, some referrer.id, 0, 0⟩
        let db1 := { db with users := db.users ++ [newUser] }
        let refRow : ReferralRow := ⟨referrer.id, uid, 100⟩
        let db2 :=
          if db1.referrals.any (fun r => r.referred_user_id == uid) then db1
          else { db1 with referrals := db1.referrals ++ [refRow] }
        let credited := db2.users.map (fun u =>
          if u.id == referrer.id then { u with bonus_ksh := u.bonus_ksh + 100 } else u)
        (.ok uid, { db2 with users := credited })

/-- `POST /api/auth/register` (src/unnamed/part_000, lines 576-626).
Referral bonus amount read from `app_settings` (default 100), credited
only when positive; an `activation_fees` row is ensured; no
`referrals` row is written by this route. -/
def registerApi (db : Db) (req : RegisterReq) (myCode : String) :
    RegisterResult × Db :=
  match db.users.find? (fun u => u.email == req.email) with
  | some _ => (.emailTaken, db)
  | none =>
    match db.users.find? (fun u => u.username == req.username) with
    | some _ => (.usernameTaken, db)
    | none =>
      let code := jsTrimStr req.referral_code
      let referrerId? :=
        if code == "" then some none
        else
          match db.users.find? (fun u => u.referral_code == code) with
          | none => none
          | some referrer => some (some referrer.id)
      match referrerId? with
      | none => (.invalidReferralCode, db)
      | some referredById =>
        let uid := nextUserId db
        let newUser : User := ⟨uid, req.username, req.email, myCode, referredById, 0, 0⟩
        let db1 := { db with users := db.users ++ [newUser] }
        let db2 :=
          if db1.activation_fees.any (fun af => af.1 == uid) then db1
          else { db1 with activation_fees := db1.activation_fees ++ [(uid, 100)] }
        match referredById with
        | none => (.ok uid, db2)
        | some rid =>
          let rb := getIntSetting db2 "referral_bonus_ksh" 100
          if 0 < rb then
            let credited := db2.users.map (fun u =>
              if u.id == rid then { u with bonus_ksh := u.bonus_ksh + rb } else u)
            (.ok uid, { db2 with users := credited })
          else (.ok uid, db2)

/-! ## Task completion -/

inductive ApiResult where
  | ok (balance : Int) (remaining : Nat)
  | err (status : Nat) (msg : String)
deriving DecidableEq, Repr

/-- `POST /api/tasks/:id/complete` (src/unnamed/part_000, lines
1064-1121).  `today` is `dayKeyNairobi()`.  The three writes run
between `BEGIN` and `COMMIT` with `ROLLBACK` on error; `failAt`
injects a storage failure at the corresponding write, after which the
transaction rolls back to the pre-`BEGIN` state.  The assignment row
is addressed by its primary key `dt.id`, which the unique
`(user_id, day_key, task_id)` constraint makes interchangeable with
that triple. -/
def completeTask (db : Db) (userId taskId : Nat) (answerRaw : List Char)
    (today : String) (failAt : Option (Fin 3)) : ApiResult × Db :=
  let ans := jsTrim answerRaw
  if ans.length < 2 then (.err 400 "Answer is required", db)
  else
    match db.daily_tasks.find? (fun r =>
        r.user_id == userId && r.day_key == today && r.task_id == taskId) with
    | none => (.err 400 "Task not assigned for today", db)
    | some dt =>
      if dt.completed then (.err 400 "Task already completed", db)
      else
        match db.tasks.find? (fun t => t.id == taskId && t.active) with
        | none => (.err 404 "Task not found", db)
        | some task =>
          if failAt = some 0 then (.err 500 "Complete failed", db)
          else
            let stamped := db.daily_tasks.map (fun r =>
              if r.user_id == userId && r.day_key == today && r.task_id == taskId
              then { r with completed := true, answer_text := some ans } else r)
            let db1 := { db with daily_tasks := stamped }
            if failAt = some 1 then (.err 500 "Complete failed", db)
            else
              let rec1 : CompletionRow :=
                ⟨userId, taskId, task.reward_ksh, some ans, today⟩
              let db2 := { db1 with task_completions := db1.task_completions ++ [rec1] }
              if failAt = some 2 then (.err 500 "Complete failed", db)
              else
                let credited := db2.users.map (fun u =>
                  if u.id == userId
                  then { u with balance_ksh := u.balance_ksh + task.reward_ksh }
                  else u)
                let db3 := { db2 with users := credited }
                let limit := (getIntSetting db3 "tasks_per_day" 10).toNat
                let rows := (db3.daily_tasks.filter (fun r =>
                  r.user_id == userId && r.day_key == today)).take limit
                let remaining := (rows.filter (fun r => !r.completed)).length
                (.ok (balanceOf db3 userId) remaining, db3)

/-- `POST /daily/tasks/:id/complete`
(src/server/src/tasks_transcription.js, lines 234-303).  `today` is
the Nairobi day.  The completion insert and the balance update are
NOT wrapped in a transaction; `failAt = some 1` models the balance
update failing (or the process crashing) after the insert committed,
in which case the inserted completion row remains. -/
def completeDailyTask (db : Db) (userId taskId : Nat)
    (transcription : List Char) (today : String) (failAt : Option (Fin 2)) :
    ApiResult × Db :=
  if taskId == 0 then (.err 400 "Invalid task id", db)
  else
    let c := (db.task_completions.filter (fun r =>
      r.user_id == userId && r.day == today)).length
    if 5 ≤ c then
      (.err 400 "Daily limit reached (5/5). Come back after midnight.", db)
    else
      match db.daily_task_assignments.find? (fun a =>
          a.user_id == userId && a.day == today && a.task_id == taskId) with
      | none => (.err 400 "This task is not assigned to you today.", db)
      | some _ =>
        match db.task_completions.find? (fun r =>
            r.user_id == userId && r.task_id == taskId && r.day == today) with
        | some _ => (.err 400 "Task already completed today.", db)
        | none =>
          match db.tasks.find? (fun t => t.id == taskId && t.active) with
          | none => (.err 404 "Task not found", db)
          | some task =>
            if transcription.length < 1 then (.err 400 "Bad request", db)
            else if !(normalize transcription == normalize task.answer_text) then
              (.err 400 "Transcription mismatch. Please try again carefully.", db)
            else
              if failAt = some 0 then (.err 400 "Failed to complete task", db)
              else
                let rec1 : CompletionRow := ⟨userId, taskId, task.reward_ksh, none, today⟩
                let db1 := { db with task_completions := db.task_completions ++ [rec1] }
                if failAt = some 1 then (.err 400 "Failed to complete task", db1)
                else
                  let credited := db1.users.map (fun u =>
                    if u.id == userId
                    then { u with balance_ksh := u.balance_ksh + task.reward_ksh }
                    else u)
                  let db2 := { db1 with users := credited }
                  let c2 := (db2.task_completions.filter (fun r =>
                    r.user_id == userId && r.day == today)).length
                  (.ok (balanceOf db2 userId) (5 - c2), db2)

/-! ## Admin overrides -/

inductive AdminResult where
  | ok
  | badRequest
deriving DecidableEq, Repr

/-- `POST /api/admin/users/:id/balance` (src/unnamed/part_000, lines
466-481).  The request body is a JSON number, modelled as a rational;
`z.number().int().min(0)` accepts exactly the non-negative integers. -/
def adminSetBalance (db : Db) (uid : Nat) (v : ℚ) : AdminResult × Db :=
  if v.den = 1 ∧ 0 ≤ v.num then
    let written := db.users.map (fun u =>
      if u.id == uid then { u with balance_ksh := v.num } else u)
    (.ok, { db with users := written })
  else (.badRequest, db)

/-- `POST /api/admin/users/:id/bonus` (src/unnamed/part_000, lines
483-498). -/
def adminSetBonus (db : Db) (uid : Nat) (v : ℚ) : AdminResult × Db :=
  if v.den = 1 ∧ 0 ≤ v.num then
    let written := db.users.map (fun u =>
      if u.id == uid then { u with bonus_ksh := v.num } else u)
    (.ok, { db with users := written })
  else (.badRequest, db)

/-! ## Daily allocation engine (`ensureDailyTasks`, src/unnamed/part_000
lines 925-1026)

`ORDER BY RANDOM() LIMIT 1` is modelled by `pickRandom`, which takes
the next oracle value as an index into the candidate row list,
mirroring `get` returning one uniformly random row (or none when the
filtered set is empty).  `Math.random()` in the category shuffle takes
the next oracle value modulo the relevant bound. -/

/-- The defensive cleanup sweep: drop `daily_tasks` rows whose user or
task no longer exists. -/
def cleanupDailyTasks (db : Db) : Db :=
  let kept := db.daily_tasks.filter (fun r =>
    db.users.any (fun u => u.id == r.user_id) &&
    db.tasks.any (fun t => t.id == r.task_id))
  { db with daily_tasks := kept }

/-- One `ORDER BY RANDOM() LIMIT 1` query over a candidate list. -/
def pickRandom (rand : List Nat) (l : List Task) : Option Task × List Nat :=
  match l with
  | [] => (none, rand.drop 1)
  | _ => (l[(rand.headD 0) % l.length]?, rand.drop 1)

/-- First occurrences, in order (`SELECT DISTINCT` keeping only
membership and relative order, which is all the loops consume). -/
def distinctList : List String → List String
  | [] => []
  | s :: ss => s :: (distinctList ss).filter (fun t => !(t == s))

/-- Code-point lexicographic order, the order SQLite's default BINARY
collation induces on UTF-8 text. -/
def ltChars : List Char → List Char → Bool
  | [], [] => false
  | [], _ :: _ => true
  | _ :: _, [] => false
  | a :: as, b :: bs =>
    a.toNat < b.toNat || (a.toNat == b.toNat && ltChars as bs)

def strLe (s t : String) : Bool :=
  !ltChars t.data s.data

def insertSorted (s : String) : List String → List String
  | [] => [s]
  | t :: ts => if strLe s t then s :: t :: ts else t :: insertSorted s ts

/-- `ORDER BY` on a text column. -/
def sortStrings : List String → List String
  | [] => []
  | s :: ss => insertSorted s (sortStrings ss)

def swapA (a : Array String) (i j : Nat) : Array String :=
  let x := a.getD i ""
  let y := a.getD j ""
  (a.setD i y).setD j x

/-- Fisher-Yates: `for (let i = n-1; i > 0; i--) j = rand % (i+1); swap`. -/
def shuffleGo (rand : List Nat) (a : Array String) : Nat → Array String × List Nat
  | 0 => (a, rand)
  | n + 1 => shuffleGo (rand.drop 1) (swapA a (n + 1) ((rand.headD 0) % (n + 2))) n

def shuffleList (rand : List Nat) (l : List String) : List String × List Nat :=
  let p := shuffleGo rand l.toArray (l.length - 1)
  (p.1.toList, p.2)

/-- Mutable loop state of the three selection passes: the `used` type
set, the `usedCats` category set, the accumulated picks and the
remaining oracle stream. -/
structure PickState where
  used : List String
  usedCats : List String
  picks : List Nat
  rand : List Nat
deriving DecidableEq, Repr

/-- Pass 1 (category diversity): for each shuffled category not yet
represented, pick one random active task of that category whose type
is unused. -/
def catPass (tasks : List Task) (limit e : Nat) :
    List String → PickState → PickState
  | [], s => s
  | cat :: rest, s =>
    if limit ≤ s.picks.length + e then s
    else if s.usedCats.contains cat then catPass tasks limit e rest s
    else
      match pickRandom s.rand (tasks.filter (fun t => t.active && t.category == cat)) with
      | (none, r) => catPass tasks limit e rest { s with rand := r }
      | (some row, r) =>
        if s.used.contains row.type then catPass tasks limit e rest { s with rand := r }
        else
          catPass tasks limit e rest
            { used := row.type :: s.used,
              usedCats := row.category :: s.usedCats,
              picks := s.picks ++ [row.id],
              rand := r }

/-- Pass 2 (type fill): for each distinct active type not yet used,
pick one random active task of that type. -/
def typePass (tasks : List Task) (limit e : Nat) :
    List String → PickState → PickState
  | [], s => s
  | typ :: rest, s =>
    if limit ≤ s.picks.length + e then s
    else if s.used.contains typ then typePass tasks limit e rest s
    else
      match pickRandom s.rand (tasks.filter (fun t => t.active && t.type == typ)) with
      | (none, r) => typePass tasks limit e rest { s with rand := r }
      | (some row, r) =>
        typePass tasks limit e rest
          { used := row.type :: s.used,
            usedCats := row.category :: s.usedCats,
            picks := s.picks ++ [row.id],
            rand := r }

/-- Pass 3 (relaxation): random active tasks, skipping used types;
after 250 failed attempts the `used` set is cleared.  `fuel` bounds the
number of loop iterations; the returned flag is `false` exactly when
the fuel ran out before the loop ended by its own tests. -/
def relaxLoop (tasks : List Task) (limit e : Nat) :
    Nat → Nat → PickState → PickState × Bool
  | _, 0, s => (s, false)
  | attempts, fuel + 1, s =>
    if limit ≤ s.picks.length + e then (s, true)
    else
      let a1 := attempts + 1
      let used1 := if 250 < a1 then [] else s.used
      let a2 := if 250 < a1 then 0 else a1
      match pickRandom s.rand (tasks.filter (fun t => t.active)) with
      | (none, r) => ({ s with used := used1, rand := r }, true)
      | (some row, r) =>
        if used1.contains row.type then
          relaxLoop tasks limit e a2 fuel { s with used := used1, rand := r }
        else
          relaxLoop tasks limit e a2 fuel
            { used := row.type :: used1,
              usedCats := row.category :: s.usedCats,
              picks := s.picks ++ [row.id],
              rand := r }

/-- `INSERT OR IGNORE INTO daily_tasks` for each pick, in order; the
unique `(user_id, day_key, task_id)` constraint silently drops rows
already present (including duplicates among the picks). -/
def insertPicks (rows : List DailyTaskRow) (u : Nat) (d : String) :
    List Nat → List DailyTaskRow
  | [] => rows
  | tid :: rest =>
    if rows.any (fun r => r.user_id == u && r.day_key == d && r.task_id == tid) then
      insertPicks rows u d rest
    else
      insertPicks (rows ++ [⟨u, d, tid, false, none⟩]) u d rest

/-- The fallback type list for empty or partial catalogs. -/
def fallbackTypes : List String :=
  ["audio_transcription", "video_transcription", "image_caption",
   "image_tagging", "text_cleanup"]

structure EnsureResult where
  db : Db
  completed : Bool
  picks : List Nat
deriving DecidableEq, Repr

/-- `ensureDailyTasks(userId, dayKey)`.  The comparisons
`existing.length >= limit` and `picks.length + existing.length >= limit`
are stated on `limit.toNat`; for a non-positive configured limit both
the original integer comparison and the clamped one are vacuously
true, so the clamp preserves behaviour. -/
def ensureDailyTasks (db0 : Db) (userId : Nat) (dayKey : String)
    (rand : List Nat) (fuel : Nat) : EnsureResult :=
  let db := cleanupDailyTasks db0
  match db.users.find? (fun u => u.id == userId) with
  | none => ⟨db, true, []⟩
  | some _ =>
    let limit := (getIntSetting db "tasks_per_day" 10).toNat
    let existing := (db.daily_tasks.filter (fun r =>
      r.user_id == userId && r.day_key == dayKey)).map (fun r => r.task_id)
    if limit ≤ existing.length then ⟨db, true, []⟩
    else
      let joined := existing.filterMap (fun tid =>
        db.tasks.find? (fun t => t.id == tid))
      let used0 := joined.map (fun t => t.type)
      let usedCats0 := joined.map (fun t => t.category)
      let activeTypes :=
        (sortStrings (distinctList ((db.tasks.filter (fun t => t.active)).map
          (fun t => t.type)))).filter (fun s => !(s == ""))
      let allTypes := if activeTypes.isEmpty then fallbackTypes else activeTypes
      let cats :=
        (sortStrings (distinctList ((db.tasks.filter (fun t => t.active)).map
          (fun t => t.category)))).filter (fun s => !(s == ""))
      let shuffled := shuffleList rand cats
      let s0 : PickState := ⟨used0, usedCats0, [], shuffled.2⟩
      let s1 := catPass db.tasks limit existing.length shuffled.1 s0
      let s2 := typePass db.tasks limit existing.length allTypes s1
      let s3 := relaxLoop db.tasks limit existing.length 0 fuel s2
      let rows := insertPicks db.daily_tasks userId dayKey s3.1.picks
      ⟨{ db with daily_tasks := rows }, s3.2, s3.1.picks⟩

/-- User ids are unique (the `users.id` PRIMARY KEY). -/
def usersIdUnique (db : Db) : Prop :=
  (db.users.map User.id).Nodup

/-! ## Concrete stores used by the witnesses and counterexamples -/

/-- A single user with the given counters. -/
def wAliceB (bal bon : Int) : User := ⟨1, "alice", "a@x.com", "ALICE1", none, bal, bon⟩

/-- A one-user store with the given counters and settings rows. -/
def wDbOf (bal bon : Int) (settings : List (String × String)) : Db :=
  ⟨[wAliceB bal bon], [], [], [], [], [], [], [], settings⟩

/-- A registration request carrying alice's referral code. -/
def wReqBob : RegisterReq := ⟨"bob", "b@x.com", "0712", "ALICE1"⟩

/-- A transcription task whose expected answer is "hi". -/
def c1Task : Task := ⟨1, "a", "Transcription", 10, true, "transcription", ['h', 'i']⟩

/-- Store for the transcription-route scenario: the task is assigned
to user 1 for the day and not yet completed. -/
def c1Db : Db := ⟨[wAliceB 0 0], [c1Task], [], [], [⟨1, "2025-01-01", 1⟩], [], [], [], []⟩

/-- Catalog of two active tasks of one shared type, daily limit 2. -/
def c3Db : Db :=
  ⟨[wAliceB 0 0], [⟨1, "a", "c", 10, true, "generic", []⟩,
    ⟨2, "a", "c", 10, true, "generic", []⟩], [], [], [], [], [], [],
    [("tasks_per_day", "2")]⟩

/-- First allocation call on `c3Db`: the oracle always picks index 0,
so both picks are task 1 and `INSERT OR IGNORE` stores one row. -/
def c3FirstCall : EnsureResult := ensureDailyTasks c3Db 1 "2025-01-01" [] 300

/-- Immediate second call: the oracle now reaches task 2, and a
second row is inserted. -/
def c3SecondCall : EnsureResult :=
  ensureDailyTasks c3FirstCall.db 1 "2025-01-01" (List.replicate 250 0 ++ [1]) 300

/-- Store whose stored daily count already equals the limit. -/
def w3Db : Db :=
  ⟨[wAliceB 0 0], [⟨1, "a", "c", 10, true, "generic", []⟩],
    [⟨1, "2025-01-01", 1, false, none⟩], [], [], [], [], [],
    [("tasks_per_day", "1")]⟩

/-- Settings rows with the transfer amount above the threshold. -/
def c5Db : Db := wDbOf 0 1000
  [("referral_redeem_threshold_ksh", "1000"), ("referral_redeem_transfer_ksh", "2000")]

/-- One active task with daily limit 2: every pick is the same task. -/
def c6Db : Db :=
  ⟨[wAliceB 0 0], [⟨1, "a", "c", 10, true, "generic", []⟩], [], [], [], [], [], [],
    [("tasks_per_day", "2")]⟩

/-! ## Lemmas: characters -/

theorem char_eq_of_toNat_eq {c d : Char} (h : c.toNat = d.toNat) : c = d :=
  Char.ext (UInt32.toNat.inj h)

theorem isJsWS_iff (c : Char) : isJsWS c = true ↔
    (c.toNat = 32 ∨ c.toNat = 9 ∨ c.toNat = 10 ∨ c.toNat = 11 ∨ c.toNat = 12 ∨
     c.toNat = 13 ∨ c.toNat = 0xa0 ∨ c.toNat = 0x1680 ∨
     (0x2000 ≤ c.toNat ∧ c.toNat ≤ 0x200a) ∨ c.toNat = 0x2028 ∨
     c.toNat = 0x2029 ∨ c.toNat = 0x202f ∨ c.toNat = 0x205f ∨
     c.toNat = 0x3000 ∨ c.toNat = 0xfeff) := by
  simp only [isJsWS, Bool.or_eq_true, Bool.and_eq_true, decide_eq_true_eq,
    Nat.beq_eq_true_eq]
  tauto

theorem ws_space {c : Char} (hw : isJsWS c = true)
    (hs : (!isJsWS c || c == ' ') = true) : c = ' ' := by
  rcases Bool.or_eq_true _ _ |>.mp hs with h | h
  · simp [hw] at h
  · exact eq_of_beq h

theorem toNat_ofNat_small {n : Nat} (h1 : 97 ≤ n) (h2 : n ≤ 122) :
    (Char.ofNat n).toNat = n := by
  have hv : n.isValidChar := Or.inl (by omega)
  unfold Char.ofNat
  rw [dif_pos hv]
  unfold Char.ofNatAux
  simp [Char.toNat, UInt32.toNat, BitVec.toNat_ofNatLt]

theorem lowerChar_toNat {c : Char} (h : 65 ≤ c.toNat ∧ c.toNat ≤ 90) :
    (lowerChar c).toNat = c.toNat + 32 := by
  unfold lowerChar
  rw [if_pos (by simp [Bool.and_eq_true, decide_eq_true_eq]; omega)]
  exact toNat_ofNat_small (by omega) (by omega)

theorem lowerChar_eq_self {c : Char} (h : ¬(65 ≤ c.toNat ∧ c.toNat ≤ 90)) :
    lowerChar c = c := by
  unfold lowerChar
  rw [if_neg]
  simp only [Bool.and_eq_true, decide_eq_true_eq]
  exact h

theorem isJsWS_lowerChar (c : Char) : isJsWS (lowerChar c) = isJsWS c := by
  by_cases h : 65 ≤ c.toNat ∧ c.toNat ≤ 90
  · have h1 := lowerChar_toNat h
    have h2 : isJsWS (lowerChar c) = false := by
      rw [← Bool.not_eq_true, isJsWS_iff, h1]
      omega
    have h3 : isJsWS c = false := by
      rw [← Bool.not_eq_true, isJsWS_iff]
      omega
    rw [h2, h3]
  · rw [lowerChar_eq_self h]

theorem lowerChar_idem (c : Char) : lowerChar (lowerChar c) = lowerChar c := by
  by_cases h : 65 ≤ c.toNat ∧ c.toNat ≤ 90
  · have h1 := lowerChar_toNat h
    exact lowerChar_eq_self (by omega)
  · rw [lowerChar_eq_self h, lowerChar_eq_self h]

theorem lowerChar_eq_of_high {c d : Char} (hd : ¬(97 ≤ d.toNat ∧ d.toNat ≤ 122))
    (h : lowerChar c = d) : c = d := by
  by_cases hc : 65 ≤ c.toNat ∧ c.toNat ≤ 90
  · have h1 := lowerChar_toNat hc
    rw [h] at h1
    omega
  · rwa [lowerChar_eq_self hc] at h

theorem lowerChar_space {c : Char} (h : lowerChar c = ' ') : c = ' ' :=
  lowerChar_eq_of_high (by decide) h

theorem straightenChar_ws {c : Char} (hw : isJsWS c = true) :
    straightenChar c = c := by
  unfold straightenChar
  rw [if_neg, if_neg]
  · intro h
    have : c = '’' := eq_of_beq h
    subst this
    simp [isJsWS_iff] at hw
  · intro h
    rcases Bool.or_eq_true _ _ |>.mp h with h1 | h1
    · have : c = '“' := eq_of_beq h1
      subst this
      simp [isJsWS_iff] at hw
    · have : c = '”' := eq_of_beq h1
      subst this
      simp [isJsWS_iff] at hw

theorem straightenChar_not_curly (c : Char) :
    (!(straightenChar c == '“' || straightenChar c == '”' ||
       straightenChar c == '’')) = true := by
  unfold straightenChar
  split
  · decide
  · split
    · decide
    · next h1 h2 =>
      simp only [Bool.or_eq_true, beq_iff_eq] at h1 h2 ⊢
      simp only [Bool.not_eq_true', Bool.or_eq_false_iff, beq_eq_false_iff_ne, ne_eq]
      exact ⟨⟨fun h => h1 (Or.inl (by simp [h])), fun h => h1 (Or.inr (by simp [h]))⟩,
        fun h => h2 (by simp [h])⟩

theorem straightenChar_cr {c : Char} (h : straightenChar c = '\r') : c = '\r' := by
  unfold straightenChar at h
  split at h
  · exact absurd h (by decide)
  · split at h
    · exact absurd h (by decide)
    · exact h

/-! ## Lemmas: shape predicates -/

theorem all_of_mem_imp {p : Char → Bool} {l m : List Char}
    (hsub : ∀ c ∈ m, c ∈ l) (h : l.all p = true) : m.all p = true := by
  rw [List.all_eq_true] at h ⊢
  exact fun c hc => h c (hsub c hc)

theorem noAdjWS_tail {c : Char} {cs : List Char}
    (h : noAdjWS (c :: cs) = true) : noAdjWS cs = true := by
  cases cs with
  | nil => rfl
  | cons d ds =>
    unfold noAdjWS at h
    exact (Bool.and_eq_true _ _ |>.mp h).2

theorem noAdjWS_cons_head {c d : Char} {ds : List Char}
    (h : noAdjWS (c :: d :: ds) = true) : (isJsWS c && isJsWS d) = false := by
  unfold noAdjWS at h
  have h1 := (Bool.and_eq_true _ _ |>.mp h).1
  rwa [Bool.not_eq_true'] at h1

theorem noAdjWS_cons_of_headNotWS {c : Char} {m : List Char}
    (hm : headNotWS m = true) (h : noAdjWS m = true) :
    noAdjWS (c :: m) = true := by
  cases m with
  | nil => rfl
  | cons d ds =>
    unfold noAdjWS
    rw [Bool.and_eq_true]
    refine ⟨?_, h⟩
    unfold headNotWS at hm
    simp only [Bool.not_eq_eq_eq_not, Bool.not_true] at hm
    simp [hm]

theorem noAdjWS_cons_of_not_ws {c : Char} {m : List Char}
    (hc : isJsWS c = false) (h : noAdjWS m = true) :
    noAdjWS (c :: m) = true := by
  cases m with
  | nil => rfl
  | cons d ds =>
    unfold noAdjWS
    rw [Bool.and_eq_true]
    exact ⟨by simp [hc], h⟩

/-! ## Lemmas: `collapseGo` -/

theorem collapseGo_mem :
    ∀ (l : List Char) (b : Bool) (c : Char), c ∈ collapseGo b l →
      c = ' ' ∨ (c ∈ l ∧ isJsWS c = false) := by
  intro l
  induction l with
  | nil => intro b c h; simp [collapseGo] at h
  | cons a as ih =>
    intro b c h
    unfold collapseGo at h
    by_cases hws : isJsWS a
    · rw [if_pos hws] at h
      cases b with
      | true =>
        simp only [if_pos] at h
        rcases ih true c h with h1 | h1
        · exact Or.inl h1
        · exact Or.inr ⟨List.mem_cons_of_mem _ h1.1, h1.2⟩
      | false =>
        simp only [Bool.false_eq_true, if_false, List.mem_cons] at h
        rcases h with h1 | h1
        · exact Or.inl h1
        · rcases ih true c h1 with h2 | h2
          · exact Or.inl h2
          · exact Or.inr ⟨List.mem_cons_of_mem _ h2.1, h2.2⟩
    · rw [if_neg hws] at h
      rcases List.mem_cons.mp h with h1 | h1
      · subst h1
        exact Or.inr ⟨List.mem_cons_self _ _, by simpa using hws⟩
      · rcases ih false c h1 with h2 | h2
        · exact Or.inl h2
        · exact Or.inr ⟨List.mem_cons_of_mem _ h2.1, h2.2⟩

theorem spacesOnly_collapseGo (l : List Char) (b : Bool) :
    spacesOnly (collapseGo b l) = true := by
  unfold spacesOnly
  rw [List.all_eq_true]
  intro c hc
  rcases collapseGo_mem l b c hc with h | h
  · subst h; decide
  · simp [h.2]

theorem headNotWS_collapseGo_true :
    ∀ l : List Char, headNotWS (collapseGo true l) = true := by
  intro l
  induction l with
  | nil => rfl
  | cons a as ih =>
    unfold collapseGo
    by_cases hws : isJsWS a
    · rw [if_pos hws]
      simpa using ih
    · rw [if_neg hws]
      unfold headNotWS
      simpa using hws

theorem noAdjWS_collapseGo :
    ∀ (l : List Char) (b : Bool), noAdjWS (collapseGo b l) = true := by
  intro l
  induction l with
  | nil => intro b; rfl
  | cons a as ih =>
    intro b
    unfold collapseGo
    by_cases hws : isJsWS a
    · rw [if_pos hws]
      cases b with
      | true => simpa using ih true
      | false =>
        simp only [Bool.false_eq_true, if_false]
        exact noAdjWS_cons_of_headNotWS (headNotWS_collapseGo_true as) (ih true)
    · rw [if_neg hws]
      exact noAdjWS_cons_of_not_ws (by simpa using hws) (ih false)

theorem collapseGo_eq_self :
    ∀ (l : List Char) (b : Bool), spacesOnly l = true → noAdjWS l = true →
      (b = true → headNotWS l = true) → collapseGo b l = l := by
  intro l
  induction l with
  | nil => intro b _ _ _; rfl
  | cons a as ih =>
    intro b hs hn hb
    unfold collapseGo
    by_cases hws : isJsWS a
    · rw [if_pos hws]
      cases b with
      | true =>
        exfalso
        have := hb rfl
        unfold headNotWS at this
        simp [hws] at this
      | false =>
        simp only [Bool.false_eq_true, if_false]
        have ha : a = ' ' := by
          have := List.all_eq_true.mp hs a (List.mem_cons_self _ _)
          exact ws_space (by simpa using hws) this
        have hhead : headNotWS as = true := by
          cases as with
          | nil => rfl
          | cons d ds =>
            have h1 := noAdjWS_cons_head hn
            rw [hws] at h1
            simp only [Bool.true_and] at h1
            unfold headNotWS
            simp [h1]
        rw [ih true (all_of_mem_imp (fun c hc => List.mem_cons_of_mem _ hc) hs)
          (noAdjWS_tail hn) (fun _ => hhead), ha]
    · rw [if_neg hws]
      rw [ih false (all_of_mem_imp (fun c hc => List.mem_cons_of_mem _ hc) hs)
        (noAdjWS_tail hn) (by simp)]

theorem collapseGo_cons_true_ws {a : Char} {m : List Char}
    (h : isJsWS a = true) : collapseGo true (a :: m) = collapseGo true m := by
  simp [collapseGo, h]

theorem collapseGo_cons_false_ws {a : Char} {m : List Char}
    (h : isJsWS a = true) : collapseGo false (a :: m) = ' ' :: collapseGo true m := by
  simp [collapseGo, h]

theorem collapseGo_cons_not_ws {a : Char} {m : List Char} (b : Bool)
    (h : isJsWS a = false) : collapseGo b (a :: m) = a :: collapseGo false m := by
  simp [collapseGo, h]

theorem collapseGo_true_append_ws {r : List Char}
    (hr : ∀ c ∈ r, isJsWS c = true) (y : List Char) :
    collapseGo true (r ++ y) = collapseGo true y := by
  induction r with
  | nil => rfl
  | cons a as ih =>
    have ha : isJsWS a = true := hr a (List.mem_cons_self _ _)
    rw [List.cons_append, collapseGo_cons_true_ws ha]
    exact ih (fun c hc => hr c (List.mem_cons_of_mem _ hc))

theorem collapseGo_ws_run {r : List Char} (hne : r ≠ [])
    (hr : ∀ c ∈ r, isJsWS c = true) (y : List Char) :
    ∀ (x : List Char) (b : Bool),
      collapseGo b (x ++ r ++ y) = collapseGo b (x ++ ' ' :: y) := by
  have hsp : isJsWS ' ' = true := by decide
  intro x
  induction x with
  | nil =>
    intro b
    cases r with
    | nil => exact absurd rfl hne
    | cons a as =>
      have ha : isJsWS a = true := hr a (List.mem_cons_self _ _)
      have has : ∀ c ∈ as, isJsWS c = true :=
        fun c hc => hr c (List.mem_cons_of_mem _ hc)
      cases b with
      | true =>
        rw [List.nil_append, List.nil_append, List.cons_append,
          collapseGo_cons_true_ws ha, collapseGo_true_append_ws has,
          collapseGo_cons_true_ws hsp]
      | false =>
        rw [List.nil_append, List.nil_append, List.cons_append,
          collapseGo_cons_false_ws ha, collapseGo_true_append_ws has,
          collapseGo_cons_false_ws hsp]
  | cons a x' ih =>
    intro b
    by_cases hws : isJsWS a
    · cases b with
      | true =>
        rw [List.cons_append, List.cons_append, List.cons_append,
          collapseGo_cons_true_ws hws, collapseGo_cons_true_ws hws]
        exact ih true
      | false =>
        rw [List.cons_append, List.cons_append, List.cons_append,
          collapseGo_cons_false_ws hws, collapseGo_cons_false_ws hws, ih true]
    · rw [List.cons_append, List.cons_append, List.cons_append,
        collapseGo_cons_not_ws b (by simpa using hws),
        collapseGo_cons_not_ws b (by simpa using hws), ih false]

/-! ## Lemmas: `dropWhile` and `rtrimWS` -/

theorem mem_dropWhile {p : Char → Bool} {c : Char} :
    ∀ {l : List Char}, c ∈ l.dropWhile p → c ∈ l := by
  intro l
  induction l with
  | nil => intro h; simp at h
  | cons a as ih =>
    intro h
    rw [List.dropWhile_cons] at h
    by_cases hp : p a
    · rw [if_pos hp] at h
      exact List.mem_cons_of_mem _ (ih h)
    · rw [if_neg hp] at h
      exact h

theorem headNotWS_dropWhile :
    ∀ l : List Char, headNotWS (l.dropWhile isJsWS) = true := by
  intro l
  induction l with
  | nil => rfl
  | cons a as ih =>
    rw [List.dropWhile_cons]
    by_cases hp : isJsWS a
    · rwa [if_pos hp]
    · rw [if_neg hp]
      show (!isJsWS a) = true
      simpa using hp

theorem noAdjWS_dropWhile {l : List Char} (h : noAdjWS l = true) :
    noAdjWS (l.dropWhile isJsWS) = true := by
  induction l with
  | nil => exact h
  | cons a as ih =>
    rw [List.dropWhile_cons]
    by_cases hp : isJsWS a
    · rw [if_pos hp]
      exact ih (noAdjWS_tail h)
    · rwa [if_neg hp]

theorem dropWhile_eq_self_of_headNotWS {l : List Char}
    (h : headNotWS l = true) : l.dropWhile isJsWS = l := by
  cases l with
  | nil => rfl
  | cons a as =>
    have h1 : (!isJsWS a) = true := h
    rw [List.dropWhile_cons, if_neg (by simpa using h1)]

theorem mem_rtrimWS {c : Char} :
    ∀ {l : List Char}, c ∈ rtrimWS l → c ∈ l := by
  intro l
  induction l with
  | nil => intro h; simp [rtrimWS] at h
  | cons a as ih =>
    intro h
    rw [rtrimWS] at h
    cases hr : rtrimWS as with
    | nil =>
      rw [hr] at h
      by_cases hp : isJsWS a
      · rw [if_pos hp] at h
        simp at h
      · rw [if_neg hp] at h
        rcases List.mem_singleton.mp h with rfl
        exact List.mem_cons_self _ _
    | cons d ds =>
      rw [hr] at h
      rcases List.mem_cons.mp h with rfl | h1
      · exact List.mem_cons_self _ _
      · exact List.mem_cons_of_mem _ (ih (hr ▸ h1))

theorem rtrimWS_cons_shape (a : Char) (as : List Char) :
    rtrimWS (a :: as) = [] ∨ ∃ r, rtrimWS (a :: as) = a :: r := by
  rw [rtrimWS]
  cases hr : rtrimWS as with
  | nil =>
    by_cases hp : isJsWS a
    · rw [if_pos hp]; exact Or.inl rfl
    · rw [if_neg hp]; exact Or.inr ⟨[], rfl⟩
  | cons d ds => exact Or.inr ⟨d :: ds, rfl⟩

theorem headNotWS_rtrimWS {l : List Char} (h : headNotWS l = true) :
    headNotWS (rtrimWS l) = true := by
  cases l with
  | nil => rfl
  | cons a as =>
    rcases rtrimWS_cons_shape a as with h1 | ⟨r, h1⟩
    · rw [h1]; rfl
    · rw [h1]
      unfold headNotWS at h ⊢
      exact h

theorem lastNotWS_rtrimWS : ∀ l : List Char, lastNotWS (rtrimWS l) = true := by
  intro l
  induction l with
  | nil => rfl
  | cons a as ih =>
    rw [rtrimWS]
    cases hr : rtrimWS as with
    | nil =>
      by_cases hp : isJsWS a
      · rw [if_pos hp]; rfl
      · rw [if_neg hp]
        unfold lastNotWS
        simpa using hp
    | cons d ds =>
      show lastNotWS (a :: d :: ds) = true
      rw [show lastNotWS (a :: d :: ds) = lastNotWS (d :: ds) from rfl]
      rw [← hr]
      exact ih

theorem noAdjWS_rtrimWS {l : List Char} (h : noAdjWS l = true) :
    noAdjWS (rtrimWS l) = true := by
  induction l with
  | nil => exact h
  | cons a as ih =>
    rw [rtrimWS]
    cases hr : rtrimWS as with
    | nil =>
      by_cases hp : isJsWS a
      · rw [if_pos hp]; rfl
      · rw [if_neg hp]; rfl
    | cons d ds =>
      have htail := ih (noAdjWS_tail h)
      rw [hr] at htail
      cases as with
      | nil => simp [rtrimWS] at hr
      | cons e es =>
        rcases rtrimWS_cons_shape e es with h1 | ⟨r, h1⟩
        · rw [h1] at hr; exact absurd hr (by simp)
        · rw [h1] at hr
          have hde : e = d := (List.cons.injEq _ _ _ _ |>.mp hr).1
          subst hde
          have hpair := noAdjWS_cons_head h
          show (!(isJsWS a && isJsWS e) && noAdjWS (e :: ds)) = true
          rw [hpair, htail]
          rfl

theorem rtrimWS_eq_self_of_lastNotWS :
    ∀ {l : List Char}, lastNotWS l = true → rtrimWS l = l := by
  intro l
  induction l with
  | nil => intro _; rfl
  | cons a as ih =>
    intro h
    rw [rtrimWS]
    cases as with
    | nil =>
      unfold lastNotWS at h
      simp only [rtrimWS]
      rw [if_neg (by simpa using h)]
    | cons d ds =>
      have h1 : lastNotWS (d :: ds) = true := by
        rw [show lastNotWS (a :: d :: ds) = lastNotWS (d :: ds) from rfl] at h
        exact h
      rw [ih h1]

/-! ## Lemmas: `toLowerList` and fixed points -/

theorem map_eq_self_of_fix {f : Char → Char} :
    ∀ {l : List Char}, (∀ c ∈ l, f c = c) → l.map f = l := by
  intro l
  induction l with
  | nil => intro _; rfl
  | cons a as ih =>
    intro h
    rw [List.map_cons, h a (List.mem_cons_self _ _),
      ih (fun c hc => h c (List.mem_cons_of_mem _ hc))]

theorem headNotWS_map_lower {l : List Char} (h : headNotWS l = true) :
    headNotWS (l.map lowerChar) = true := by
  cases l with
  | nil => rfl
  | cons a as =>
    rw [List.map_cons]
    show (!isJsWS (lowerChar a)) = true
    rw [isJsWS_lowerChar]
    exact h

theorem lastNotWS_map_lower :
    ∀ {l : List Char}, lastNotWS l = true → lastNotWS (l.map lowerChar) = true := by
  intro l
  induction l with
  | nil => intro _; rfl
  | cons a as ih =>
    intro h
    cases as with
    | nil =>
      show (!isJsWS (lowerChar a)) = true
      rw [isJsWS_lowerChar]
      exact h
    | cons d ds =>
      have h1 : lastNotWS (d :: ds) = true := h
      have h2 := ih h1
      rw [List.map_cons] at h2
      show lastNotWS (lowerChar d :: List.map lowerChar ds) = true
      exact h2

theorem noAdjWS_map_lower :
    ∀ {l : List Char}, noAdjWS l = true → noAdjWS (l.map lowerChar) = true := by
  intro l
  induction l with
  | nil => intro _; rfl
  | cons a as ih =>
    intro h
    cases as with
    | nil => rfl
    | cons d ds =>
      have htail := ih (noAdjWS_tail h)
      rw [List.map_cons] at htail
      show (!(isJsWS (lowerChar a) && isJsWS (lowerChar d)) &&
        noAdjWS (lowerChar d :: List.map lowerChar ds)) = true
      rw [isJsWS_lowerChar, isJsWS_lowerChar, noAdjWS_cons_head h, htail]
      rfl

theorem spacesOnly_map_lower {l : List Char} (h : spacesOnly l = true) :
    spacesOnly (l.map lowerChar) = true := by
  unfold spacesOnly at h ⊢
  rw [List.all_eq_true] at h ⊢
  intro c hc
  rcases List.mem_map.mp hc with ⟨d, hd, rfl⟩
  have hdp := h d hd
  by_cases hws : isJsWS (lowerChar d)
  · rw [isJsWS_lowerChar] at hws
    have : d = ' ' := ws_space hws hdp
    subst this
    decide
  · simp [hws]

theorem noCurly_map_lower {l : List Char} (h : noCurly l = true) :
    noCurly (l.map lowerChar) = true := by
  unfold noCurly at h ⊢
  rw [List.all_eq_true] at h ⊢
  intro c hc
  rcases List.mem_map.mp hc with ⟨d, hd, rfl⟩
  have hdp := h d hd
  simp only [Bool.not_eq_eq_eq_not, Bool.not_true, Bool.or_eq_false_iff,
    beq_eq_false_iff_ne, ne_eq] at hdp ⊢
  obtain ⟨⟨h1, h2⟩, h3⟩ := hdp
  exact ⟨⟨fun he => h1 (lowerChar_eq_of_high (by decide) he),
    fun he => h2 (lowerChar_eq_of_high (by decide) he)⟩,
    fun he => h3 (lowerChar_eq_of_high (by decide) he)⟩

theorem lowerFixed_map_lower (l : List Char) :
    lowerFixed (l.map lowerChar) = true := by
  unfold lowerFixed
  rw [List.all_eq_true]
  intro c hc
  rcases List.mem_map.mp hc with ⟨d, _, rfl⟩
  simpa using lowerChar_idem d

/-! ## Lemmas: `straighten`, `removeCR` and the canonical form -/

theorem noCurly_straighten (l : List Char) : noCurly (straighten l) = true := by
  unfold noCurly straighten
  rw [List.all_eq_true]
  intro c hc
  rcases List.mem_map.mp hc with ⟨d, _, rfl⟩
  exact straightenChar_not_curly d

theorem noCurly_collapseGo {l : List Char} (b : Bool) (h : noCurly l = true) :
    noCurly (collapseGo b l) = true := by
  unfold noCurly at h ⊢
  rw [List.all_eq_true] at h ⊢
  intro c hc
  rcases collapseGo_mem l b c hc with rfl | ⟨hm, _⟩
  · decide
  · exact h c hm

theorem spacesOnly_no_cr {l : List Char} (h : spacesOnly l = true) :
    ∀ c ∈ l, (!(c == '\x0d')) = true := by
  intro c hc
  have hp := List.all_eq_true.mp h c hc
  by_cases hcr : c = '\x0d'
  · subst hcr
    have : (' ' : Char) = '\x0d' := (ws_space (by decide) hp).symm
    exact absurd this (by decide)
  · simpa using hcr

theorem removeCR_eq_self {l : List Char}
    (h : ∀ c ∈ l, (!(c == '\x0d')) = true) : removeCR l = l := by
  unfold removeCR
  exact List.filter_eq_self.mpr h

theorem straighten_eq_self {l : List Char} (h : noCurly l = true) :
    straighten l = l := by
  unfold straighten
  apply map_eq_self_of_fix
  intro c hc
  have hp := List.all_eq_true.mp h c hc
  simp only [Bool.not_eq_eq_eq_not, Bool.not_true, Bool.or_eq_false_iff,
    beq_eq_false_iff_ne, ne_eq] at hp
  unfold straightenChar
  rw [if_neg, if_neg]
  · simp [hp.2]
  · simp [hp.1.1, hp.1.2]

theorem isNormalized_intro {l : List Char} (h1 : spacesOnly l = true)
    (h2 : noAdjWS l = true) (h3 : headNotWS l = true) (h4 : lastNotWS l = true)
    (h5 : noCurly l = true) (h6 : lowerFixed l = true) :
    isNormalized l = true := by
  unfold isNormalized
  rw [h1, h2, h3, h4, h5, h6]
  rfl

theorem isNormalized_parts {l : List Char} (h : isNormalized l = true) :
    spacesOnly l = true ∧ noAdjWS l = true ∧ headNotWS l = true ∧
    lastNotWS l = true ∧ noCurly l = true ∧ lowerFixed l = true := by
  unfold isNormalized at h
  simp only [Bool.and_eq_true] at h
  tauto

/-- The canonical-form invariant: `normalize` lands in `isNormalized`. -/
theorem isNormalized_normalize (s : List Char) :
    isNormalized (normalize s) = true := by
  have hc1 : noCurly (straighten (removeCR s)) = true := noCurly_straighten _
  have h2s := spacesOnly_collapseGo (straighten (removeCR s)) false
  have h2n := noAdjWS_collapseGo (straighten (removeCR s)) false
  have h2c := noCurly_collapseGo false hc1
  have h3s : spacesOnly ((collapseWS (straighten (removeCR s))).dropWhile isJsWS) = true :=
    all_of_mem_imp (fun c hc => mem_dropWhile hc) h2s
  have h3c : noCurly ((collapseWS (straighten (removeCR s))).dropWhile isJsWS) = true :=
    all_of_mem_imp (fun c hc => mem_dropWhile hc) h2c
  have h3n := noAdjWS_dropWhile (l := collapseWS (straighten (removeCR s))) h2n
  have h3h := headNotWS_dropWhile (collapseWS (straighten (removeCR s)))
  have h4s : spacesOnly (jsTrim (collapseWS (straighten (removeCR s)))) = true :=
    all_of_mem_imp (fun c hc => mem_rtrimWS hc) h3s
  have h4c : noCurly (jsTrim (collapseWS (straighten (removeCR s)))) = true :=
    all_of_mem_imp (fun c hc => mem_rtrimWS hc) h3c
  have h4n := noAdjWS_rtrimWS h3n
  have h4h := headNotWS_rtrimWS h3h
  have h4l := lastNotWS_rtrimWS ((collapseWS (straighten (removeCR s))).dropWhile isJsWS)
  exact isNormalized_intro (spacesOnly_map_lower h4s) (noAdjWS_map_lower h4n)
    (headNotWS_map_lower h4h) (lastNotWS_map_lower h4l)
    (noCurly_map_lower h4c) (lowerFixed_map_lower _)

/-- A list already in canonical form is untouched by `normalize`. -/
theorem normalize_eq_self {l : List Char} (h : isNormalized l = true) :
    normalize l = l := by
  obtain ⟨h1, h2, h3, h4, h5, h6⟩ := isNormalized_parts h
  unfold normalize toLowerList jsTrim collapseWS
  rw [removeCR_eq_self (spacesOnly_no_cr h1), straighten_eq_self h5,
    collapseGo_eq_self l false h1 h2 (by simp),
    dropWhile_eq_self_of_headNotWS h3, rtrimWS_eq_self_of_lastNotWS h4]
  apply map_eq_self_of_fix
  intro c hc
  exact eq_of_beq (List.all_eq_true.mp h6 c hc)

/-- Idempotence of the normalization pipeline. -/
theorem normalize_idem (s : List Char) : normalize (normalize s) = normalize s :=
  normalize_eq_self (isNormalized_normalize s)

/-- Two strings that agree after quote straightening (in particular,
strings differing only in curly-versus-straight quotes) normalize to
the same value. -/
theorem normalize_quotes {s t : List Char}
    (h : List.Forall₂ (fun a b => straightenChar a = straightenChar b) s t) :
    normalize s = normalize t := by
  suffices hst : straighten (removeCR s) = straighten (removeCR t) by
    unfold normalize
    rw [hst]
  induction h with
  | nil => rfl
  | cons hab htail ih =>
    rename_i a b s' t'
    unfold removeCR straighten at ih ⊢
    rw [List.filter_cons, List.filter_cons]
    by_cases ha : a = '\x0d'
    · have hb : b = '\x0d' := by
        apply straightenChar_cr
        rw [← hab, ha]
        decide
      subst ha
      subst hb
      simpa using ih
    · have hb : b ≠ '\x0d' := by
        intro hb
        apply ha
        apply straightenChar_cr
        rw [hab, hb]
        decide
      rw [if_pos (by simpa using ha), if_pos (by simpa using hb),
        List.map_cons, List.map_cons, hab, ih]

/-- A whitespace run containing at least one non-carriage-return
character collapses to the same result as a single space.  (A run made
only of carriage returns is deleted before whitespace collapsing and
is NOT equivalent to a space; see the counterexample.) -/
theorem normalize_ws_run {r : List Char}
    (hex : ∃ c ∈ r, (c == '\x0d') = false)
    (hws : ∀ c ∈ r, isJsWS c = true) (x y : List Char) :
    normalize (x ++ r ++ y) = normalize (x ++ ' ' :: y) := by
  obtain ⟨c0, hc0r, hc0⟩ := hex
  have hmem : c0 ∈ removeCR r := by
    unfold removeCR
    rw [List.mem_filter]
    exact ⟨hc0r, by simp [hc0]⟩
  have hne : removeCR r ≠ [] := List.ne_nil_of_mem hmem
  have hws' : ∀ c ∈ removeCR r, isJsWS c = true := by
    intro c hc
    unfold removeCR at hc
    exact hws c (List.mem_filter.mp hc).1
  have hfix : straighten (removeCR r) = removeCR r :=
    map_eq_self_of_fix (fun c hc => straightenChar_ws (hws' c hc))
  unfold normalize
  congr 1
  congr 1
  unfold collapseWS
  have hL : straighten (removeCR (x ++ r ++ y)) =
      straighten (removeCR x) ++ removeCR r ++ straighten (removeCR y) := by
    unfold removeCR straighten
    rw [List.filter_append, List.filter_append, List.map_append, List.map_append]
    unfold removeCR straighten at hfix
    rw [hfix]
  have hR : straighten (removeCR (x ++ ' ' :: y)) =
      straighten (removeCR x) ++ ' ' :: straighten (removeCR y) := by
    unfold removeCR straighten
    rw [List.filter_append, List.filter_cons, if_pos (by decide),
      List.map_append, List.map_cons]
    rfl
  rw [hL, hR]
  exact collapseGo_ws_run hne hws' (straighten (removeCR y)) (straighten (removeCR x)) false


/-! ## Lemmas: list utilities for the store operations -/

theorem find?_map_comm {α : Type} (f : α → α) (p : α → Bool)
    (hp : ∀ x, p (f x) = p x) :
    ∀ l : List α, (l.map f).find? p = (l.find? p).map f := by
  intro l
  induction l with
  | nil => rfl
  | cons a as ih =>
    rw [List.map_cons]
    by_cases hpa : p a
    · rw [List.find?_cons_of_pos _ (by rw [hp]; exact hpa),
        List.find?_cons_of_pos _ hpa]
      rfl
    · rw [List.find?_cons_of_neg _ (by rw [hp]; simpa using hpa),
        List.find?_cons_of_neg _ hpa]
      exact ih

theorem mem_of_mem_map {α : Type} {f : α → α} {l : List α} {x : α}
    (h : x ∈ l.map f) : ∃ a ∈ l, x = f a := by
  rcases List.mem_map.mp h with ⟨a, ha, rfl⟩
  exact ⟨a, ha, rfl⟩

/-! ## Lemmas: redemption -/

/-- `POST /redeem`: failure exactly below the hard-coded 1000
threshold, with the state unchanged. -/
theorem redeem_below (db : Db) (uid : Nat) (u : User)
    (hu : db.users.find? (fun v => v.id == uid) = some u)
    (hlt : u.bonus_ksh < 1000) :
    redeem db uid = (RedeemResult.thresholdNotMet, db) := by
  unfold redeem
  rw [hu]
  dsimp only
  rw [if_pos hlt]

theorem redeem_success (db : Db) (uid : Nat) (u : User)
    (hu : db.users.find? (fun v => v.id == uid) = some u)
    (hge : 1000 ≤ u.bonus_ksh) :
    (redeem db uid).1 =
      RedeemResult.ok 1000 (u.balance_ksh + 1000) (u.bonus_ksh - 1000) ∧
    bonusOf (redeem db uid).2 uid = u.bonus_ksh - 1000 ∧
    balanceOf (redeem db uid).2 uid = u.balance_ksh + 1000 := by
  have hid : (u.id == uid) = true := by simpa using List.find?_some hu
  unfold redeem
  rw [hu]
  dsimp only
  rw [if_neg (by omega)]
  have hmap := find?_map_comm
    (fun v : User => if v.id == uid then
      { v with balance_ksh := v.balance_ksh + 1000,
               bonus_ksh := v.bonus_ksh - 1000 } else v)
    (fun v : User => v.id == uid)
    (by intro x; by_cases hx : x.id == uid <;> simp [hx]) db.users
  rw [hu] at hmap
  simp only [Option.map_some'] at hmap
  rw [if_pos hid] at hmap
  unfold bonusOf balanceOf findUser
  simp only [hmap]
  exact ⟨trivial, trivial, trivial⟩

/-- `POST /api/referrals/redeem`: failure exactly below the configured
threshold, with the state unchanged. -/
theorem redeemApi_below (db : Db) (uid : Nat) (u : User)
    (hu : db.users.find? (fun v => v.id == uid) = some u)
    (hlt : u.bonus_ksh < getIntSetting db "referral_redeem_threshold_ksh" 1000) :
    redeemApi db uid = (RedeemResult.thresholdNotMet, db) := by
  unfold redeemApi
  rw [hu]
  dsimp only
  rw [if_pos hlt]

theorem redeemApi_success (db : Db) (uid : Nat) (u : User)
    (hu : db.users.find? (fun v => v.id == uid) = some u)
    (hge : getIntSetting db "referral_redeem_threshold_ksh" 1000 ≤ u.bonus_ksh) :
    (redeemApi db uid).1 =
      RedeemResult.ok (getIntSetting db "referral_redeem_transfer_ksh" 1000)
        (u.balance_ksh + getIntSetting db "referral_redeem_transfer_ksh" 1000)
        (u.bonus_ksh - getIntSetting db "referral_redeem_transfer_ksh" 1000) ∧
    bonusOf (redeemApi db uid).2 uid =
      u.bonus_ksh - getIntSetting db "referral_redeem_transfer_ksh" 1000 ∧
    balanceOf (redeemApi db uid).2 uid =
      u.balance_ksh + getIntSetting db "referral_redeem_transfer_ksh" 1000 := by
  have hid : (u.id == uid) = true := by simpa using List.find?_some hu
  unfold redeemApi
  rw [hu]
  dsimp only
  rw [if_neg (by omega)]
  have hmap := find?_map_comm
    (fun v : User => if v.id == uid then
      { v with balance_ksh := v.balance_ksh + getIntSetting db "referral_redeem_transfer_ksh" 1000,
               bonus_ksh := v.bonus_ksh - getIntSetting db "referral_redeem_transfer_ksh" 1000 } else v)
    (fun v : User => v.id == uid)
    (by intro x; by_cases hx : x.id == uid <;> simp [hx]) db.users
  rw [hu] at hmap
  simp only [Option.map_some'] at hmap
  rw [if_pos hid] at hmap
  unfold bonusOf balanceOf findUser
  simp only [hmap]
  exact ⟨trivial, trivial, trivial⟩

/-! ## Lemmas: user ids and non-negativity -/

theorem maxId_ge {l : List User} {u : User} (h : u ∈ l) :
    u.id ≤ l.foldr (fun v m => max v.id m) 0 := by
  induction l with
  | nil => simp at h
  | cons a as ih =>
    rcases List.mem_cons.mp h with rfl | h1
    · exact Nat.le_max_left _ _
    · exact Nat.le_trans (ih h1) (Nat.le_max_right _ _)

theorem mem_id_ne_nextUserId {db : Db} {u : User} (h : u ∈ db.users) :
    u.id ≠ nextUserId db := by
  have := maxId_ge h
  unfold nextUserId
  omega

theorem find?_id_of_nodup :
    ∀ {l : List User}, (l.map User.id).Nodup → ∀ {u : User}, u ∈ l →
      l.find? (fun v => v.id == u.id) = some u := by
  intro l
  induction l with
  | nil => intro _ u hu; simp at hu
  | cons a as ih =>
    intro hnd u hu
    have hnd' : (as.map User.id).Nodup := by
      rw [List.map_cons] at hnd
      exact hnd.of_cons
    by_cases ha : (a.id == u.id) = true
    · have hau : a = u :=
        List.inj_on_of_nodup_map hnd (List.mem_cons_self _ _) hu (eq_of_beq ha)
      exact (List.find?_cons_of_pos (p := fun v => v.id == u.id) as ha).trans
        (congrArg some hau)
    · have hu' : u ∈ as := by
        rcases List.mem_cons.mp hu with rfl | h1
        · simp at ha
        · exact h1
      exact (List.find?_cons_of_neg (p := fun v => v.id == u.id) as ha).trans
        (ih hnd' hu')

theorem nonneg_credit_balance {l : List User} {uid : Nat} {δ : Int} (hδ : 0 ≤ δ)
    (h : ∀ u ∈ l, 0 ≤ u.balance_ksh ∧ 0 ≤ u.bonus_ksh) :
    ∀ w ∈ l.map (fun u => if u.id == uid then
        { u with balance_ksh := u.balance_ksh + δ } else u),
      0 ≤ w.balance_ksh ∧ 0 ≤ w.bonus_ksh := by
  intro w hw
  obtain ⟨a, ha, rfl⟩ := mem_of_mem_map hw
  have hbase := h a ha
  by_cases hid : (a.id == uid) = true
  · rw [if_pos hid]
    exact ⟨by dsimp only; omega, hbase.2⟩
  · rw [if_neg hid]
    exact hbase

theorem nonneg_credit_bonus {l : List User} {uid : Nat} {δ : Int} (hδ : 0 ≤ δ)
    (h : ∀ u ∈ l, 0 ≤ u.balance_ksh ∧ 0 ≤ u.bonus_ksh) :
    ∀ w ∈ l.map (fun u => if u.id == uid then
        { u with bonus_ksh := u.bonus_ksh + δ } else u),
      0 ≤ w.balance_ksh ∧ 0 ≤ w.bonus_ksh := by
  intro w hw
  obtain ⟨a, ha, rfl⟩ := mem_of_mem_map hw
  have hbase := h a ha
  by_cases hid : (a.id == uid) = true
  · rw [if_pos hid]
    exact ⟨hbase.1, by dsimp only; omega⟩
  · rw [if_neg hid]
    exact hbase

theorem nonneg_transfer {l : List User} {uid : Nat} {me : User} {t : Int}
    (ht0 : 0 ≤ t)
    (hfind : l.find? (fun v => v.id == uid) = some me)
    (hnodup : (l.map User.id).Nodup)
    (hme : t ≤ me.bonus_ksh)
    (h : ∀ u ∈ l, 0 ≤ u.balance_ksh ∧ 0 ≤ u.bonus_ksh) :
    ∀ w ∈ l.map (fun u => if u.id == uid then
        { u with balance_ksh := u.balance_ksh + t,
                 bonus_ksh := u.bonus_ksh - t } else u),
      0 ≤ w.balance_ksh ∧ 0 ≤ w.bonus_ksh := by
  intro w hw
  obtain ⟨a, ha, rfl⟩ := mem_of_mem_map hw
  have hbase := h a ha
  by_cases hid : (a.id == uid) = true
  · have hmemme := List.mem_of_find?_eq_some hfind
    have hmeid : (me.id == uid) = true := by simpa using List.find?_some hfind
    have hame : a = me := by
      apply List.inj_on_of_nodup_map hnodup ha hmemme
      have h1 : a.id = uid := eq_of_beq hid
      have h2 : me.id = uid := eq_of_beq hmeid
      show a.id = me.id
      omega
    subst hame
    rw [if_pos hid]
    exact ⟨by dsimp only; omega, by dsimp only; omega⟩
  · rw [if_neg hid]
    exact hbase

/-- `POST /redeem` preserves non-negativity of both counters
(unconditionally: the hard-coded transfer equals the hard-coded
threshold). -/
theorem redeem_nonneg (db : Db) (uid : Nat) (hnodup : usersIdUnique db)
    (h : nonnegCounters db) : nonnegCounters (redeem db uid).2 := by
  unfold redeem
  cases hf : db.users.find? (fun u => u.id == uid) with
  | none => exact h
  | some me =>
    dsimp only
    by_cases hlt : me.bonus_ksh < 1000
    · rw [if_pos hlt]
      exact h
    · rw [if_neg hlt]
      split <;>
        · intro w hw
          exact nonneg_transfer (by omega) hf hnodup (by omega) h w hw

/-- `POST /api/referrals/redeem` preserves non-negativity provided the
configured transfer amount is non-negative and does not exceed the
configured threshold (true of the 1000/1000 defaults). -/
theorem redeemApi_nonneg (db : Db) (uid : Nat) (hnodup : usersIdUnique db)
    (ht0 : 0 ≤ getIntSetting db "referral_redeem_transfer_ksh" 1000)
    (htr : getIntSetting db "referral_redeem_transfer_ksh" 1000 ≤
      getIntSetting db "referral_redeem_threshold_ksh" 1000)
    (h : nonnegCounters db) : nonnegCounters (redeemApi db uid).2 := by
  unfold redeemApi
  cases hf : db.users.find? (fun u => u.id == uid) with
  | none => exact h
  | some me =>
    dsimp only
    by_cases hlt : me.bonus_ksh < getIntSetting db "referral_redeem_threshold_ksh" 1000
    · rw [if_pos hlt]
      exact h
    · rw [if_neg hlt]
      split <;>
        · intro w hw
          exact nonneg_transfer ht0 hf hnodup (by omega) h w hw

/-! ## Lemmas: registration -/

theorem registerAuth_nonneg (db : Db) (req : RegisterReq) (myCode : String)
    (h : nonnegCounters db) : nonnegCounters (registerAuth db req myCode).2 := by
  unfold registerAuth
  cases hf : db.users.find? (fun u => u.email == req.email || u.username == req.username) with
  | some _ => exact h
  | none =>
    dsimp only
    by_cases hc : (jsTrimStr req.referral_code == "") = true
    · rw [if_pos hc]
      intro w hw
      rcases List.mem_append.mp hw with h1 | h1
      · exact h w h1
      · rcases List.mem_singleton.mp h1 with rfl
        exact ⟨le_refl 0, le_refl 0⟩
    · rw [if_neg hc]
      cases hr : db.users.find? (fun u => u.referral_code == jsTrimStr req.referral_code) with
      | none => exact h
      | some referrer =>
        dsimp only
        split
        all_goals
          intro w hw
          obtain ⟨a, ha, rfl⟩ := mem_of_mem_map hw
          have hbase : 0 ≤ a.balance_ksh ∧ 0 ≤ a.bonus_ksh := by
            rcases List.mem_append.mp ha with h1 | h1
            · exact h a h1
            · rcases List.mem_singleton.mp h1 with rfl
              exact ⟨le_refl 0, le_refl 0⟩
          by_cases hid : (a.id == referrer.id) = true
          · rw [if_pos hid]
            exact ⟨hbase.1, by dsimp only; omega⟩
          · rw [if_neg hid]
            exact hbase

theorem registerApi_nonneg (db : Db) (req : RegisterReq) (myCode : String)
    (h : nonnegCounters db) : nonnegCounters (registerApi db req myCode).2 := by
  have hnew : ∀ rb : Option Nat,
      ∀ w ∈ db.users ++ [(⟨nextUserId db, req.username, req.email, myCode, rb, 0, 0⟩ : User)],
        0 ≤ w.balance_ksh ∧ 0 ≤ w.bonus_ksh := by
    intro rb w hw
    rcases List.mem_append.mp hw with h1 | h1
    · exact h w h1
    · rcases List.mem_singleton.mp h1 with rfl
      exact ⟨le_refl 0, le_refl 0⟩
  unfold registerApi
  cases hf : db.users.find? (fun u => u.email == req.email) with
  | some _ => exact h
  | none =>
    dsimp only
    cases hf2 : db.users.find? (fun u => u.username == req.username) with
    | some _ => exact h
    | none =>
      dsimp only
      by_cases hc : (jsTrimStr req.referral_code == "") = true
      · rw [if_pos hc]
        dsimp only
        split <;> exact hnew none
      · rw [if_neg hc]
        cases hr : db.users.find? (fun u => u.referral_code == jsTrimStr req.referral_code) with
        | none => exact h
        | some referrer =>
          have hset : ∀ (us : List User) (af : List (Nat × Int)),
              getIntSetting { db with users := us, activation_fees := af }
                "referral_bonus_ksh" 100 =
              getIntSetting db "referral_bonus_ksh" 100 := fun _ _ => rfl
          dsimp only
          split
          all_goals
            simp only [hset]
            by_cases hrb : (0 : Int) <
                getIntSetting db "referral_bonus_ksh" 100
            · rw [if_pos hrb]
              intro w hw
              obtain ⟨a, ha, rfl⟩ := mem_of_mem_map hw
              have hbase := hnew (some referrer.id) a ha
              by_cases hid : (a.id == referrer.id) = true
              · rw [if_pos hid]
                exact ⟨hbase.1, by dsimp only; omega⟩
              · rw [if_neg hid]
                exact hbase
            · rw [if_neg hrb]
              exact hnew (some referrer.id)

theorem getIntSetting_congr_users (db : Db) (us : List User)
    (af : List (Nat × Int)) (key : String) (fb : Int) :
    getIntSetting { db with users := us, activation_fees := af } key fb =
      getIntSetting db key fb := rfl

theorem some_or_eq {α : Type} (a : α) (o : Option α) : (some a).or o = some a := rfl

/-- Any registration attempt whose email or username is already taken
is rejected before any write. -/
theorem registerAuth_email_taken (db : Db) (req : RegisterReq) (myCode : String)
    (hex : (db.users.find?
      (fun u => u.email == req.email || u.username == req.username)).isSome = true) :
    registerAuth db req myCode = (RegisterResult.emailOrUsernameTaken, db) := by
  unfold registerAuth
  obtain ⟨y, hy⟩ := Option.isSome_iff_exists.mp hex
  rw [hy]

/-- `POST /register` (src/unnamed/part_001): with a fresh identity and
a valid referral code, registration succeeds and credits the referrer
by exactly 100, and an identical retry is rejected by the
email/username uniqueness check before any write, leaving the state
(and hence the referrer's bonus) unchanged. -/
theorem registerAuth_credits_once (db : Db) (req : RegisterReq) (myCode : String)
    (R : User) (hnodup : usersIdUnique db)
    (hfresh : db.users.find?
      (fun u => u.email == req.email || u.username == req.username) = none)
    (hck : (jsTrimStr req.referral_code == "") = false)
    (href : db.users.find?
      (fun u => u.referral_code == jsTrimStr req.referral_code) = some R) :
    (registerAuth db req myCode).1 = RegisterResult.ok (nextUserId db) ∧
    bonusOf (registerAuth db req myCode).2 R.id = bonusOf db R.id + 100 ∧
    (∀ myCode2, registerAuth (registerAuth db req myCode).2 req myCode2 =
      (RegisterResult.emailOrUsernameTaken, (registerAuth db req myCode).2)) := by
  have hRmem : R ∈ db.users := List.mem_of_find?_eq_some href
  have hRfind : db.users.find? (fun v => v.id == R.id) = some R :=
    find?_id_of_nodup hnodup hRmem
  have hfst : (registerAuth db req myCode).1 = RegisterResult.ok (nextUserId db) := by
    unfold registerAuth
    rw [hfresh]
    dsimp only
    rw [if_neg (by simp [hck]), href]
  have husers : (registerAuth db req myCode).2.users =
      (db.users ++
        [(⟨nextUserId db, req.username, req.email, myCode, some R.id, 0, 0⟩ : User)]).map
        (fun u => if u.id == R.id then { u with bonus_ksh := u.bonus_ksh + 100 } else u) := by
    unfold registerAuth
    rw [hfresh]
    dsimp only
    rw [if_neg (by simp [hck]), href]
    dsimp only
    split <;> rfl
  refine ⟨hfst, ?_, ?_⟩
  · have hmc := find?_map_comm
      (fun u : User => if u.id == R.id then
        { u with bonus_ksh := u.bonus_ksh + 100 } else u)
      (fun v : User => v.id == R.id)
      (by intro x; by_cases hx : (x.id == R.id) = true <;> simp [hx])
      (db.users ++
        [(⟨nextUserId db, req.username, req.email, myCode, some R.id, 0, 0⟩ : User)])
    unfold bonusOf findUser
    rw [husers, hRfind, hmc, List.find?_append, hRfind, some_or_eq]
    simp only [Option.map_some']
    rw [if_pos (by simp : ((R.id == R.id) = true))]
  · intro myCode2
    apply registerAuth_email_taken
    rw [husers]
    apply List.find?_isSome.mpr
    refine ⟨(fun u : User => if u.id == R.id then
        { u with bonus_ksh := u.bonus_ksh + 100 } else u)
        ⟨nextUserId db, req.username, req.email, myCode, some R.id, 0, 0⟩, ?_, ?_⟩
    · exact List.mem_map_of_mem _
        (List.mem_append_right _ (List.mem_singleton_self _))
    · dsimp only
      by_cases hx : ((⟨nextUserId db, req.username, req.email, myCode,
          some R.id, 0, 0⟩ : User).id == R.id) = true
      · rw [if_pos hx]
        simp
      · rw [if_neg hx]
        simp

/-- `POST /api/auth/register`: a request whose email is already taken
is rejected before any write. -/
theorem registerApi_email_taken (db : Db) (req : RegisterReq) (myCode : String)
    (hex : (db.users.find? (fun u => u.email == req.email)).isSome = true) :
    registerApi db req myCode = (RegisterResult.emailTaken, db) := by
  unfold registerApi
  obtain ⟨y, hy⟩ := Option.isSome_iff_exists.mp hex
  rw [hy]

/-- `POST /api/auth/register` (src/unnamed/part_000): with a fresh
identity, a valid referral code and a positive configured referral
bonus, registration succeeds and credits the referrer by exactly that
bonus, and an identical retry is rejected by the email uniqueness
check before any write. -/
theorem registerApi_credits_once (db : Db) (req : RegisterReq) (myCode : String)
    (R : User) (hnodup : usersIdUnique db)
    (hfreshE : db.users.find? (fun u => u.email == req.email) = none)
    (hfreshU : db.users.find? (fun u => u.username == req.username) = none)
    (hck : (jsTrimStr req.referral_code == "") = false)
    (href : db.users.find?
      (fun u => u.referral_code == jsTrimStr req.referral_code) = some R)
    (hrb : 0 < getIntSetting db "referral_bonus_ksh" 100) :
    (registerApi db req myCode).1 = RegisterResult.ok (nextUserId db) ∧
    bonusOf (registerApi db req myCode).2 R.id =
      bonusOf db R.id + getIntSetting db "referral_bonus_ksh" 100 ∧
    (∀ myCode2, registerApi (registerApi db req myCode).2 req myCode2 =
      (RegisterResult.emailTaken, (registerApi db req myCode).2)) := by
  have hRmem : R ∈ db.users := List.mem_of_find?_eq_some href
  have hRfind : db.users.find? (fun v => v.id == R.id) = some R :=
    find?_id_of_nodup hnodup hRmem
  have hfst : (registerApi db req myCode).1 = RegisterResult.ok (nextUserId db) := by
    unfold registerApi
    rw [hfreshE]
    dsimp only
    rw [hfreshU]
    dsimp only
    rw [if_neg (by simp [hck]), href]
    dsimp only
    split
    all_goals
      simp only [getIntSetting_congr_users]
      rw [if_pos hrb]
  have husers : (registerApi db req myCode).2.users =
      (db.users ++
        [(⟨nextUserId db, req.username, req.email, myCode, some R.id, 0, 0⟩ : User)]).map
        (fun u => if u.id == R.id then
          { u with bonus_ksh := u.bonus_ksh +
            getIntSetting db "referral_bonus_ksh" 100 } else u) := by
    unfold registerApi
    rw [hfreshE]
    dsimp only
    rw [hfreshU]
    dsimp only
    rw [if_neg (by simp [hck]), href]
    dsimp only
    split
    all_goals
      simp only [getIntSetting_congr_users]
      rw [if_pos hrb]
  refine ⟨hfst, ?_, ?_⟩
  · have hmc := find?_map_comm
      (fun u : User => if u.id == R.id then
        { u with bonus_ksh := u.bonus_ksh +
          getIntSetting db "referral_bonus_ksh" 100 } else u)
      (fun v : User => v.id == R.id)
      (by intro x; by_cases hx : (x.id == R.id) = true <;> simp [hx])
      (db.users ++
        [(⟨nextUserId db, req.username, req.email, myCode, some R.id, 0, 0⟩ : User)])
    unfold bonusOf findUser
    rw [husers, hRfind, hmc, List.find?_append, hRfind, some_or_eq]
    simp only [Option.map_some']
    rw [if_pos (by simp : ((R.id == R.id) = true))]
  · intro myCode2
    apply registerApi_email_taken
    rw [husers]
    apply List.find?_isSome.mpr
    refine ⟨(fun u : User => if u.id == R.id then
        { u with bonus_ksh := u.bonus_ksh +
          getIntSetting db "referral_bonus_ksh" 100 } else u)
        ⟨nextUserId db, req.username, req.email, myCode, some R.id, 0, 0⟩, ?_, ?_⟩
    · exact List.mem_map_of_mem _
        (List.mem_append_right _ (List.mem_singleton_self _))
    · dsimp only
      by_cases hx : ((⟨nextUserId db, req.username, req.email, myCode,
          some R.id, 0, 0⟩ : User).id == R.id) = true
      · rw [if_pos hx]
        simp
      · rw [if_neg hx]
        simp

/-! ## Lemmas: task completion -/

/-- `POST /api/tasks/:id/complete` evaluates the answer-length check
before the assignment and completion checks: a trimmed answer shorter
than 2 characters always yields the invalid-answer error, and the
state is untouched. -/
theorem completeTask_invalid_first (db : Db) (uid tid : Nat) (ans : List Char)
    (today : String) (failAt : Option (Fin 3)) (h : (jsTrim ans).length < 2) :
    completeTask db uid tid ans today failAt =
      (ApiResult.err 400 "Answer is required", db) := by
  unfold completeTask
  rw [if_pos h]

/-- The three writes of `POST /api/tasks/:id/complete` run in a single
transaction: a call that does not succeed (including one whose
injected write failure triggered `ROLLBACK`) leaves the stored state
exactly as it was. -/
theorem completeTask_all_or_nothing (db : Db) (uid tid : Nat) (ans : List Char)
    (today : String) (failAt : Option (Fin 3)) :
    (∃ b r, (completeTask db uid tid ans today failAt).1 = ApiResult.ok b r) ∨
    (completeTask db uid tid ans today failAt).2 = db := by
  unfold completeTask
  dsimp only
  split
  · exact Or.inr rfl
  · split
    · exact Or.inr rfl
    · split
      · exact Or.inr rfl
      · split
        · exact Or.inr rfl
        · split
          · exact Or.inr rfl
          · split
            · exact Or.inr rfl
            · split
              · exact Or.inr rfl
              · exact Or.inl ⟨_, _, rfl⟩

theorem completeTask_nonneg (db : Db) (uid tid : Nat) (ans : List Char)
    (today : String) (failAt : Option (Fin 3))
    (h : nonnegCounters db) (hr : rewardsNonneg db) :
    nonnegCounters (completeTask db uid tid ans today failAt).2 := by
  unfold completeTask
  dsimp only
  split
  · exact h
  · split
    · exact h
    · split
      · exact h
      · split
        · exact h
        · next task htask =>
          split
          · exact h
          · split
            · exact h
            · split
              · exact h
              · have htm : task ∈ db.tasks := List.mem_of_find?_eq_some htask
                have hrw : 0 ≤ task.reward_ksh := hr task htm
                intro w hw
                exact nonneg_credit_balance hrw h w hw

theorem completeDailyTask_nonneg (db : Db) (uid tid : Nat) (tr : List Char)
    (today : String) (failAt : Option (Fin 2))
    (h : nonnegCounters db) (hr : rewardsNonneg db) :
    nonnegCounters (completeDailyTask db uid tid tr today failAt).2 := by
  unfold completeDailyTask
  dsimp only
  split
  · exact h
  · split
    · exact h
    · split
      · exact h
      · split
        · exact h
        · split
          · exact h
          · next task htask =>
            split
            · exact h
            · split
              · exact h
              · split
                · exact h
                · split
                  · exact h
                  · have htm : task ∈ db.tasks := List.mem_of_find?_eq_some htask
                    have hrw : 0 ≤ task.reward_ksh := hr task htm
                    intro w hw
                    exact nonneg_credit_balance hrw h w hw

/-! ## Lemmas: admin overrides -/

theorem adminSetBalance_spec (db : Db) (uid : Nat) (v : ℚ) :
    ((adminSetBalance db uid v).1 = AdminResult.ok ↔ (v.den = 1 ∧ 0 ≤ v.num)) ∧
    ((v.den = 1 ∧ 0 ≤ v.num) →
      ∀ w ∈ (adminSetBalance db uid v).2.users, w.id = uid →
        w.balance_ksh = v.num ∧ 0 ≤ w.balance_ksh) ∧
    (¬(v.den = 1 ∧ 0 ≤ v.num) →
      adminSetBalance db uid v = (AdminResult.badRequest, db)) := by
  unfold adminSetBalance
  by_cases hv : v.den = 1 ∧ 0 ≤ v.num
  · rw [if_pos hv]
    refine ⟨by simp [hv], ?_, by simp [hv]⟩
    intro _ w hw hid
    obtain ⟨a, ha, rfl⟩ := mem_of_mem_map hw
    by_cases haid : (a.id == uid) = true
    · rw [if_pos haid]
      exact ⟨rfl, hv.2⟩
    · rw [if_neg haid] at hid ⊢
      exact absurd (by simp [hid]) haid
  · rw [if_neg hv]
    exact ⟨⟨fun h => by simp at h, fun h => absurd h hv⟩,
      fun h => absurd h hv, fun _ => rfl⟩

theorem adminSetBonus_spec (db : Db) (uid : Nat) (v : ℚ) :
    ((adminSetBonus db uid v).1 = AdminResult.ok ↔ (v.den = 1 ∧ 0 ≤ v.num)) ∧
    ((v.den = 1 ∧ 0 ≤ v.num) →
      ∀ w ∈ (adminSetBonus db uid v).2.users, w.id = uid →
        w.bonus_ksh = v.num ∧ 0 ≤ w.bonus_ksh) ∧
    (¬(v.den = 1 ∧ 0 ≤ v.num) →
      adminSetBonus db uid v = (AdminResult.badRequest, db)) := by
  unfold adminSetBonus
  by_cases hv : v.den = 1 ∧ 0 ≤ v.num
  · rw [if_pos hv]
    refine ⟨by simp [hv], ?_, by simp [hv]⟩
    intro _ w hw hid
    obtain ⟨a, ha, rfl⟩ := mem_of_mem_map hw
    by_cases haid : (a.id == uid) = true
    · rw [if_pos haid]
      exact ⟨rfl, hv.2⟩
    · rw [if_neg haid] at hid ⊢
      exact absurd (by simp [hid]) haid
  · rw [if_neg hv]
    exact ⟨⟨fun h => by simp at h, fun h => absurd h hv⟩,
      fun h => absurd h hv, fun _ => rfl⟩

/-! ## Lemmas: daily allocation engine -/

theorem catPass_bound (tasks : List Task) (limit e : Nat) :
    ∀ (cats : List String) (s : PickState),
      s.picks.length + e ≤ limit →
      (catPass tasks limit e cats s).picks.length + e ≤ limit := by
  intro cats
  induction cats with
  | nil => intro s h; exact h
  | cons cat rest ih =>
    intro s h
    unfold catPass
    split
    · exact h
    · next h0 =>
      split
      · exact ih s h
      · split
        · exact ih _ h
        · split
          · exact ih _ h
          · apply ih
            dsimp only
            rw [List.length_append]
            simp only [List.length_singleton]
            omega

theorem typePass_bound (tasks : List Task) (limit e : Nat) :
    ∀ (types : List String) (s : PickState),
      s.picks.length + e ≤ limit →
      (typePass tasks limit e types s).picks.length + e ≤ limit := by
  intro types
  induction types with
  | nil => intro s h; exact h
  | cons typ rest ih =>
    intro s h
    unfold typePass
    split
    · exact h
    · next h0 =>
      split
      · exact ih s h
      · split
        · exact ih _ h
        · apply ih
          dsimp only
          rw [List.length_append]
          simp only [List.length_singleton]
          omega

theorem relaxLoop_bound (tasks : List Task) (limit e : Nat) :
    ∀ (fuel attempts : Nat) (s : PickState),
      s.picks.length + e ≤ limit →
      (relaxLoop tasks limit e attempts fuel s).1.picks.length + e ≤ limit := by
  intro fuel
  induction fuel with
  | zero => intro attempts s h; exact h
  | succ n ih =>
    intro attempts s h
    unfold relaxLoop
    split
    · exact h
    · next h0 =>
      dsimp only
      split
      · exact h
      · split <;> split
        all_goals
          first
          | exact ih _ _ h
          | · apply ih
              dsimp only
              rw [List.length_append]
              simp only [List.length_singleton]
              omega

theorem insertPicks_count (u : Nat) (d : String) :
    ∀ (picks : List Nat) (rows : List DailyTaskRow),
      ((insertPicks rows u d picks).filter
        (fun r => r.user_id == u && r.day_key == d)).length ≤
      (rows.filter (fun r => r.user_id == u && r.day_key == d)).length +
        picks.length := by
  intro picks
  induction picks with
  | nil => intro rows; simp [insertPicks]
  | cons tid rest ih =>
    intro rows
    unfold insertPicks
    split
    · exact Nat.le_trans (ih rows) (by simp only [List.length_cons]; omega)
    · have hc : (((rows ++ [DailyTaskRow.mk u d tid false none]).filter
          (fun r => r.user_id == u && r.day_key == d))).length =
          ((rows.filter (fun r => r.user_id == u && r.day_key == d))).length + 1 := by
        rw [List.filter_append]
        simp
      exact Nat.le_trans (ih _) (by rw [hc]; simp only [List.length_cons]; omega)

theorem length_filter_filter_le {α : Type} (k g : α → Bool) :
    ∀ l : List α, ((l.filter g).filter k).length ≤ (l.filter k).length := by
  intro l
  induction l with
  | nil => simp
  | cons a as ih =>
    rw [List.filter_cons, List.filter_cons]
    by_cases hg : g a
    · rw [if_pos hg, List.filter_cons]
      by_cases hk : k a
      · rw [if_pos hk, if_pos hk]
        simpa using ih
      · rw [if_neg hk, if_neg hk]
        exact ih
    · rw [if_neg hg]
      by_cases hk : k a
      · rw [if_pos hk]
        exact Nat.le_trans ih (by simp)
      · rw [if_neg hk]
        exact ih

theorem countDT_cleanup_le (db : Db) (u : Nat) (d : String) :
    countDT (cleanupDailyTasks db) u d ≤ countDT db u d := by
  unfold countDT cleanupDailyTasks
  exact length_filter_filter_le _ _ db.daily_tasks

/-- Core bound: starting from fewer than `limit` stored rows, the
three passes plus the `INSERT OR IGNORE` loop never push the stored
row count for (user, day) above `limit`. -/
theorem ensure_core_bound (tasks : List Task) (limit e : Nat)
    (cats types used usedCats : List String) (rnd : List Nat) (fuel : Nat)
    (rows : List DailyTaskRow) (u : Nat) (d : String)
    (he : e = (rows.filter (fun r => r.user_id == u && r.day_key == d)).length)
    (hlt : ¬ limit ≤ e) :
    ((insertPicks rows u d
        (relaxLoop tasks limit e 0 fuel
          (typePass tasks limit e types
            (catPass tasks limit e cats ⟨used, usedCats, [], rnd⟩))).1.picks).filter
      (fun r => r.user_id == u && r.day_key == d)).length ≤ limit := by
  have h0 : (([] : List Nat)).length + e ≤ limit := by
    simp only [List.length_nil]
    omega
  have h1 := catPass_bound tasks limit e cats ⟨used, usedCats, [], rnd⟩ h0
  have h2 := typePass_bound tasks limit e types _ h1
  have h3 := relaxLoop_bound tasks limit e fuel 0 _ h2
  have h4 := insertPicks_count u d
    (relaxLoop tasks limit e 0 fuel
      (typePass tasks limit e types
        (catPass tasks limit e cats ⟨used, usedCats, [], rnd⟩))).1.picks rows
  omega

/-- P2 (bounded allocation), unconditional form: a call never pushes
the stored count for (user, day_key) above the larger of its previous
value and the configured limit. -/
theorem ensureDailyTasks_bound (db0 : Db) (u : Nat) (d : String)
    (rand : List Nat) (fuel : Nat) :
    countDT (ensureDailyTasks db0 u d rand fuel).db u d ≤
      max (countDT db0 u d) ((getIntSetting db0 "tasks_per_day" 10).toNat) := by
  have hclean : countDT (cleanupDailyTasks db0) u d ≤ countDT db0 u d :=
    countDT_cleanup_le db0 u d
  unfold ensureDailyTasks
  dsimp only
  split
  · exact Nat.le_trans hclean (Nat.le_max_left _ _)
  · split
    · exact Nat.le_trans hclean (Nat.le_max_left _ _)
    · next hlt =>
      refine Nat.le_trans ?_ (Nat.le_max_right _ _)
      unfold countDT
      dsimp only
      exact ensure_core_bound _ _ _ _ _ _ _ _ _ _ _ _
        (by rw [List.length_map]) hlt

/-- P1 fragment that does hold: once the stored count for (user,
day_key) has reached the configured limit, a further call is a no-op
on a well-formed store (it inserts nothing and leaves the assigned
set identical). -/
theorem ensureDailyTasks_noop (db : Db) (u : Nat) (d : String)
    (rand : List Nat) (fuel : Nat) (hwf : wellFormedDb db)
    (hcnt : (getIntSetting db "tasks_per_day" 10).toNat ≤ countDT db u d) :
    (ensureDailyTasks db u d rand fuel).db = db ∧
    (ensureDailyTasks db u d rand fuel).picks = [] := by
  have hclean : cleanupDailyTasks db = db := by
    unfold cleanupDailyTasks
    rw [List.filter_eq_self.mpr (fun r hr => ?_)]
    · exact (Bool.and_eq_true _ _).mpr ⟨(hwf r hr).1, (hwf r hr).2⟩
  unfold ensureDailyTasks
  rw [hclean]
  dsimp only
  cases hfu : db.users.find? (fun v => v.id == u) with
  | none => exact ⟨rfl, rfl⟩
  | some w =>
    dsimp only
    rw [if_pos (by simpa [countDT, List.length_map] using hcnt)]
    exact ⟨rfl, rfl⟩

theorem pickRandom_some {rand : List Nat} {l : List Task} (h : l ≠ []) :
    ∃ t r, pickRandom rand l = (some t, r) := by
  unfold pickRandom
  cases l with
  | nil => exact absurd rfl h
  | cons a as =>
    have hlen : (rand.headD 0) % (a :: as).length < (a :: as).length :=
      Nat.mod_lt _ (by simp)
    exact ⟨(a :: as)[(rand.headD 0) % (a :: as).length],
      rand.drop 1, by rw [List.getElem?_eq_getElem hlen]⟩

/-- Termination of the relaxation loop: with fuel at least
`(limit - done) * 252 + (251 - attempts)` the loop ends by its own
exit tests, not by fuel exhaustion. -/
theorem relaxLoop_term (tasks : List Task) (limit e : Nat) :
    ∀ (fuel attempts : Nat) (s : PickState), attempts ≤ 250 →
      (limit - (s.picks.length + e)) * 252 + (251 - attempts) ≤ fuel →
      (relaxLoop tasks limit e attempts fuel s).2 = true := by
  intro fuel
  induction fuel with
  | zero =>
    intro attempts s ha hf
    exfalso
    omega
  | succ n ih =>
    intro attempts s ha hf
    unfold relaxLoop
    split
    · rfl
    · next h0 =>
      dsimp only
      split
      · rfl
      · split
        · next hgt =>
          split
          · next hcont =>
            exfalso
            simp at hcont
          · apply ih _ _ (by omega)
            dsimp only
            rw [List.length_append]
            simp only [List.length_singleton]
            have h250 : attempts = 250 := by omega
            subst h250
            omega
        · next hgt =>
          split
          · apply ih _ _ (by omega)
            dsimp only
            omega
          · apply ih _ _ (by omega)
            dsimp only
            rw [List.length_append]
            simp only [List.length_singleton]
            omega

/-- When the loop ends normally and the active catalog is nonempty,
the pick quota is filled: picks + existing reach the limit. -/
theorem relaxLoop_fills (tasks : List Task) (limit e : Nat)
    (hact : tasks.filter (fun t => t.active) ≠ []) :
    ∀ (fuel attempts : Nat) (s : PickState),
      (relaxLoop tasks limit e attempts fuel s).2 = true →
      limit ≤ (relaxLoop tasks limit e attempts fuel s).1.picks.length + e := by
  intro fuel
  induction fuel with
  | zero =>
    intro attempts s h
    simp [relaxLoop] at h
  | succ n ih =>
    intro attempts s h
    rw [relaxLoop] at h ⊢
    by_cases h0 : limit ≤ s.picks.length + e
    · rw [if_pos h0]
      exact h0
    · rw [if_neg h0] at h ⊢
      dsimp only at h ⊢
      obtain ⟨t, r, hp⟩ := @pickRandom_some s.rand _ hact
      rw [hp] at h ⊢
      dsimp only at h ⊢
      by_cases hgt : 250 < attempts + 1
      · simp only [if_pos hgt] at h ⊢
        by_cases hcont : (([] : List String).contains t.type) = true
        · simp at hcont
        · simp only [if_neg hcont] at h ⊢
          exact ih _ _ h
      · simp only [if_neg hgt] at h ⊢
        by_cases hcont : (s.used.contains t.type) = true
        · simp only [if_pos hcont] at h ⊢
          exact ih _ _ h
        · simp only [if_neg hcont] at h ⊢
          exact ih _ _ h

theorem getIntSetting_cleanup (db : Db) (key : String) (fb : Int) :
    getIntSetting (cleanupDailyTasks db) key fb = getIntSetting db key fb := rfl

theorem cleanup_users (db : Db) : (cleanupDailyTasks db).users = db.users := rfl

theorem cleanup_tasks (db : Db) : (cleanupDailyTasks db).tasks = db.tasks := rfl

/-- Termination: with fuel `(limit + 1) * 252` the relaxation loop
always ends by its own exit tests (the 250-attempt clearing guarantees
a pick at least every 252 iterations), for every catalog. -/
theorem ensureDailyTasks_terminates (db0 : Db) (u : Nat) (d : String)
    (rand : List Nat) (fuel : Nat)
    (hfuel : ((getIntSetting db0 "tasks_per_day" 10).toNat + 1) * 252 ≤ fuel) :
    (ensureDailyTasks db0 u d rand fuel).completed = true := by
  unfold ensureDailyTasks
  dsimp only
  split
  · rfl
  · split
    · rfl
    · next hlt =>
      apply relaxLoop_term _ _ _ fuel 0 _ (by omega)
      simp only [getIntSetting_cleanup]
      omega

/-- Quota filling: with a nonempty active catalog and enough fuel, the
call returns with picks plus previously stored rows at least the
configured limit (the pick LIST reaches the quota; the stored ROWS may
still be fewer, because duplicate picks collapse under
`INSERT OR IGNORE`). -/
theorem ensureDailyTasks_fills (db0 : Db) (u : Nat) (d : String)
    (rand : List Nat) (fuel : Nat)
    (hfuel : ((getIntSetting db0 "tasks_per_day" 10).toNat + 1) * 252 ≤ fuel)
    (hact : db0.tasks.filter (fun t => t.active) ≠ [])
    (hu : (db0.users.find? (fun v => v.id == u)).isSome = true) :
    (getIntSetting db0 "tasks_per_day" 10).toNat ≤
      (ensureDailyTasks db0 u d rand fuel).picks.length +
        countDT (cleanupDailyTasks db0) u d := by
  have key : ∀ s : PickState,
      (getIntSetting (cleanupDailyTasks db0) "tasks_per_day" 10).toNat ≤
        (relaxLoop (cleanupDailyTasks db0).tasks
          (getIntSetting (cleanupDailyTasks db0) "tasks_per_day" 10).toNat
          (((cleanupDailyTasks db0).daily_tasks.filter
            (fun r => r.user_id == u && r.day_key == d)).map
              (fun r => r.task_id)).length
          0 fuel s).1.picks.length +
        (((cleanupDailyTasks db0).daily_tasks.filter
          (fun r => r.user_id == u && r.day_key == d)).map
            (fun r => r.task_id)).length := by
    intro s
    apply relaxLoop_fills
    · rw [cleanup_tasks]
      exact hact
    · apply relaxLoop_term _ _ _ fuel 0 _ (by omega)
      simp only [getIntSetting_cleanup]
      omega
  unfold ensureDailyTasks
  dsimp only
  obtain ⟨w, hw⟩ := Option.isSome_iff_exists.mp hu
  rw [cleanup_users, hw]
  dsimp only
  split
  · next h =>
    simp only [List.length_nil, Nat.zero_add]
    unfold countDT
    rw [List.length_map] at h
    simp only [getIntSetting_cleanup] at h
    exact h
  · next h =>
    have hlen : countDT (cleanupDailyTasks db0) u d =
        (((cleanupDailyTasks db0).daily_tasks.filter
          (fun r => r.user_id == u && r.day_key == d)).map
            (fun r => r.task_id)).length := by
      unfold countDT
      rw [List.length_map]
    rw [hlen, show (getIntSetting db0 "tasks_per_day" 10) =
      getIntSetting (cleanupDailyTasks db0) "tasks_per_day" 10 from rfl]
    exact key _
/-! ## The claims -/

set_option maxRecDepth 8000

/-- C1: the spec requires the three completion writes to commit
atomically.  The `/api/tasks/:id/complete` route does wrap them in a
transaction (final conjunct), but the transcription route
`/daily/tasks/:id/complete` runs `INSERT INTO task_completions` and
`UPDATE users SET balance_ksh = ...` with no transaction: when the
balance update fails after the insert, the call reports failure yet
the completion record stays committed without any credit. -/
theorem claim_C1_transcription_not_atomic :
    (completeDailyTask c1Db 1 1 ['H', 'I'] "2025-01-01" (some 1)).1 =
      ApiResult.err 400 "Failed to complete task" ∧
    (completeDailyTask c1Db 1 1 ['H', 'I'] "2025-01-01" (some 1)).2.task_completions.length = 1 ∧
    balanceOf (completeDailyTask c1Db 1 1 ['H', 'I'] "2025-01-01" (some 1)).2 1 = 0 ∧
    (completeDailyTask c1Db 1 1 ['H', 'I'] "2025-01-01" (some 1)).2 ≠ c1Db ∧
    (∀ failAt : Option (Fin 3),
      (∃ b r, (completeTask c1Db 1 1 ['H', 'I'] "2025-01-01" failAt).1 = ApiResult.ok b r) ∨
      (completeTask c1Db 1 1 ['H', 'I'] "2025-01-01" failAt).2 = c1Db) :=
  ⟨by decide, by decide, by decide, by decide,
   fun failAt => completeTask_all_or_nothing c1Db 1 1 ['H', 'I'] "2025-01-01" failAt⟩

/-- C2: bounded allocation.  When the stored count for (user, day_key)
is within the configured daily limit, it still is after any
`ensureDailyTasks` call: the early return, the per-pass stops and the
relaxation loop's stop all respect the limit, and the cleanup sweep
only removes rows. -/
theorem claim_C2_bounded_allocation (db0 : Db) (u : Nat) (d : String)
    (rand : List Nat) (fuel : Nat)
    (h : countDT db0 u d ≤ (getIntSetting db0 "tasks_per_day" 10).toNat) :
    countDT (ensureDailyTasks db0 u d rand fuel).db u d ≤
      (getIntSetting db0 "tasks_per_day" 10).toNat :=
  le_trans (ensureDailyTasks_bound db0 u d rand fuel) (max_le h (le_refl _))

/-- C2 witness: a concrete call never pushes the stored count above
the configured limit of 2. -/
theorem claim_C2_witness :
    countDT (ensureDailyTasks c3Db 1 "2025-01-01" [] 300).db 1 "2025-01-01" ≤
      (getIntSetting c3Db "tasks_per_day" 10).toNat :=
  claim_C2_bounded_allocation c3Db 1 "2025-01-01" [] 300 (by decide)

/-- C3 counterexample: allocation is NOT idempotent while the stored
count is below the limit.  On a two-task catalog with limit 2 the
first call happens to pick the same task twice (`INSERT OR IGNORE`
stores one row), and the second call immediately after inserts a
further row and changes the assigned set. -/
theorem claim_C3_counterexample :
    countDT c3FirstCall.db 1 "2025-01-01" = 1 ∧
    countDT c3SecondCall.db 1 "2025-01-01" = 2 ∧
    assignedIds c3SecondCall.db 1 "2025-01-01" ≠ assignedIds c3FirstCall.db 1 "2025-01-01" := by
  exact ⟨by decide, by decide, by decide⟩

/-- C3: amended idempotence.  Once the stored count for (user,
day_key) has reached the configured limit, a further call on a
well-formed store is a no-op: the store is unchanged, nothing is
picked, and the assigned task set is identical.  (Below the limit a
second call may insert more rows; see the counterexample.) -/
theorem claim_C3_idempotent_at_limit (db : Db) (u : Nat) (d : String)
    (rand : List Nat) (fuel : Nat) (hwf : wellFormedDb db)
    (hcnt : (getIntSetting db "tasks_per_day" 10).toNat ≤ countDT db u d) :
    (ensureDailyTasks db u d rand fuel).db = db ∧
    (ensureDailyTasks db u d rand fuel).picks = [] ∧
    assignedIds (ensureDailyTasks db u d rand fuel).db u d = assignedIds db u d := by
  obtain ⟨h1, h2⟩ := ensureDailyTasks_noop db u d rand fuel hwf hcnt
  exact ⟨h1, h2, by rw [h1]⟩

/-- C3 witness: on a store already holding its limit of one row, a
further call changes nothing. -/
theorem claim_C3_witness :
    (ensureDailyTasks w3Db 1 "2025-01-01" [] 300).db = w3Db ∧
    (ensureDailyTasks w3Db 1 "2025-01-01" [] 300).picks = [] ∧
    assignedIds (ensureDailyTasks w3Db 1 "2025-01-01" [] 300).db 1 "2025-01-01" =
      assignedIds w3Db 1 "2025-01-01" :=
  claim_C3_idempotent_at_limit w3Db 1 "2025-01-01" [] 300
    (by unfold wellFormedDb; decide) (by decide)

/-- C4: redemption threshold.  Under the default configuration (both
settings resolve to 1000, as with the seeded settings rows or with no
row at all) both redemption routes fail with `thresholdNotMet` exactly
when the bonus is below 1000, and on success redeem exactly 1000:
bonus decreases by 1000 and balance increases by 1000. -/
theorem claim_C4_redeem_threshold (db : Db) (uid : Nat) (u : User)
    (hu : db.users.find? (fun v => v.id == uid) = some u)
    (hth : getIntSetting db "referral_redeem_threshold_ksh" 1000 = 1000)
    (htr : getIntSetting db "referral_redeem_transfer_ksh" 1000 = 1000) :
    (((redeem db uid).1 = RedeemResult.thresholdNotMet ↔ u.bonus_ksh < 1000) ∧
      (1000 ≤ u.bonus_ksh →
        (redeem db uid).1 =
          RedeemResult.ok 1000 (u.balance_ksh + 1000) (u.bonus_ksh - 1000) ∧
        bonusOf (redeem db uid).2 uid = u.bonus_ksh - 1000 ∧
        balanceOf (redeem db uid).2 uid = u.balance_ksh + 1000)) ∧
    (((redeemApi db uid).1 = RedeemResult.thresholdNotMet ↔ u.bonus_ksh < 1000) ∧
      (1000 ≤ u.bonus_ksh →
        (redeemApi db uid).1 =
          RedeemResult.ok 1000 (u.balance_ksh + 1000) (u.bonus_ksh - 1000) ∧
        bonusOf (redeemApi db uid).2 uid = u.bonus_ksh - 1000 ∧
        balanceOf (redeemApi db uid).2 uid = u.balance_ksh + 1000)) := by
  refine ⟨⟨⟨fun hres => ?_, fun hlt => ?_⟩, fun hge => ?_⟩,
    ⟨⟨fun hres => ?_, fun hlt => ?_⟩, fun hge => ?_⟩⟩
  · by_contra hge
    push_neg at hge
    have hs := (redeem_success db uid u hu hge).1
    rw [hs] at hres
    exact RedeemResult.noConfusion hres
  · rw [redeem_below db uid u hu hlt]
  · exact redeem_success db uid u hu hge
  · by_contra hge
    push_neg at hge
    have hs := (redeemApi_success db uid u hu (by rw [hth]; exact hge)).1
    rw [htr] at hs
    rw [hs] at hres
    exact RedeemResult.noConfusion hres
  · rw [redeemApi_below db uid u hu (by rw [hth]; exact hlt)]
  · have hs := redeemApi_success db uid u hu (by rw [hth]; exact hge)
    rw [htr] at hs
    exact hs

/-- C4 witness: bonus 950 fails with `thresholdNotMet`; bonus 1050
redeems exactly 1000 on both routes, leaving bonus 50 and balance
1007. -/
theorem claim_C4_witness :
    (redeem (wDbOf 7 950 []) 1).1 = RedeemResult.thresholdNotMet ∧
    (redeem (wDbOf 7 1050 []) 1).1 = RedeemResult.ok 1000 1007 50 ∧
    bonusOf (redeem (wDbOf 7 1050 []) 1).2 1 = 50 ∧
    balanceOf (redeem (wDbOf 7 1050 []) 1).2 1 = 1007 ∧
    (redeemApi (wDbOf 7 1050 []) 1).1 = RedeemResult.ok 1000 1007 50 := by
  have hl := claim_C4_redeem_threshold (wDbOf 7 950 []) 1 (wAliceB 7 950)
    (by decide) (by decide) (by decide)
  have hh := claim_C4_redeem_threshold (wDbOf 7 1050 []) 1 (wAliceB 7 1050)
    (by decide) (by decide) (by decide)
  exact ⟨hl.1.1.mpr (by decide), (hh.1.2 (by decide)).1, (hh.1.2 (by decide)).2.1,
    (hh.1.2 (by decide)).2.2, (hh.2.2 (by decide)).1⟩

/-- C5 counterexample: non-negativity does NOT hold for every
configuration of the settings.  With the threshold row at 1000 and
the transfer row at 2000, redeeming from a bonus of exactly 1000
passes the threshold check and drives the stored bonus to -1000. -/
theorem claim_C5_counterexample :
    nonnegCounters c5Db ∧
    getIntSetting c5Db "referral_redeem_threshold_ksh" 1000 = 1000 ∧
    getIntSetting c5Db "referral_redeem_transfer_ksh" 1000 = 2000 ∧
    bonusOf (redeemApi c5Db 1).2 1 = -1000 :=
  ⟨by unfold nonnegCounters; decide, by decide, by decide, by decide⟩

/-- C5: amended non-negativity.  On a store with unique user ids,
non-negative counters and non-negative task rewards, every core
operation preserves non-negativity of both counters — for redemption
via settings, under the extra proviso (true of the defaults) that the
configured transfer amount is non-negative and no larger than the
configured threshold. -/
theorem claim_C5_nonneg_invariant (db : Db) (hnodup : usersIdUnique db)
    (h : nonnegCounters db) (hr : rewardsNonneg db)
    (ht0 : 0 ≤ getIntSetting db "referral_redeem_transfer_ksh" 1000)
    (htr : getIntSetting db "referral_redeem_transfer_ksh" 1000 ≤
      getIntSetting db "referral_redeem_threshold_ksh" 1000) :
    (∀ uid, nonnegCounters (redeem db uid).2) ∧
    (∀ uid, nonnegCounters (redeemApi db uid).2) ∧
    (∀ uid tid ans today failAt,
      nonnegCounters (completeTask db uid tid ans today failAt).2) ∧
    (∀ uid tid tr today failAt,
      nonnegCounters (completeDailyTask db uid tid tr today failAt).2) ∧
    (∀ req myCode, nonnegCounters (registerAuth db req myCode).2) ∧
    (∀ req myCode, nonnegCounters (registerApi db req myCode).2) :=
  ⟨fun uid => redeem_nonneg db uid hnodup h,
   fun uid => redeemApi_nonneg db uid hnodup ht0 htr h,
   fun uid tid ans today failAt => completeTask_nonneg db uid tid ans today failAt h hr,
   fun uid tid tr today failAt => completeDailyTask_nonneg db uid tid tr today failAt h hr,
   fun req myCode => registerAuth_nonneg db req myCode h,
   fun req myCode => registerApi_nonneg db req myCode h⟩

/-- C5 witness: with the default 1000/1000 configuration a concrete
redemption leaves the counters non-negative. -/
theorem claim_C5_witness : nonnegCounters (redeemApi (wDbOf 0 1000 []) 1).2 :=
  (claim_C5_nonneg_invariant (wDbOf 0 1000 [])
    (by unfold usersIdUnique; decide) (by unfold nonnegCounters; decide)
    (by unfold rewardsNonneg; decide) (by decide) (by decide)).2.1 1

/-- C6 counterexample: the call terminates, but "the full daily limit
of tasks" is NOT assigned on every non-empty active catalog: with one
active task and limit 2, both picks are the same task, `INSERT OR
IGNORE` collapses them, and only one row is stored. -/
theorem claim_C6_counterexample :
    c6Db.tasks.filter (fun t => t.active) ≠ [] ∧
    (getIntSetting c6Db "tasks_per_day" 10).toNat = 2 ∧
    (ensureDailyTasks c6Db 1 "2025-01-01" [] 300).completed = true ∧
    countDT (ensureDailyTasks c6Db 1 "2025-01-01" [] 300).db 1 "2025-01-01" = 1 := by
  exact ⟨by decide, by decide, by decide, by decide⟩

/-- C6: amended termination.  With fuel `(limit + 1) * 252` the loop
always terminates through its own exit tests (the 250-attempt
clearing of the used-types set guarantees a pick at least every 252
iterations), on EVERY catalog; and when the active catalog is
non-empty and the user exists, the picked list plus the already
stored rows reaches the configured limit — though the stored rows may
remain below it, as the counterexample shows. -/
theorem claim_C6_terminates_and_fills (db0 : Db) (u : Nat) (d : String)
    (rand : List Nat) (fuel : Nat)
    (hfuel : ((getIntSetting db0 "tasks_per_day" 10).toNat + 1) * 252 ≤ fuel) :
    (ensureDailyTasks db0 u d rand fuel).completed = true ∧
    (db0.tasks.filter (fun t => t.active) ≠ [] →
      (db0.users.find? (fun v => v.id == u)).isSome = true →
      (getIntSetting db0 "tasks_per_day" 10).toNat ≤
        (ensureDailyTasks db0 u d rand fuel).picks.length +
          countDT (cleanupDailyTasks db0) u d) :=
  ⟨ensureDailyTasks_terminates db0 u d rand fuel hfuel,
   fun hact hu => ensureDailyTasks_fills db0 u d rand fuel hfuel hact hu⟩

/-- C6 witness: on the one-task catalog with limit 2 the call
completes and the picked list covers the quota. -/
theorem claim_C6_witness :
    (ensureDailyTasks c6Db 1 "2025-01-01" [] 756).completed = true ∧
    (getIntSetting c6Db "tasks_per_day" 10).toNat ≤
      (ensureDailyTasks c6Db 1 "2025-01-01" [] 756).picks.length +
        countDT (cleanupDailyTasks c6Db) 1 "2025-01-01" :=
  ⟨(claim_C6_terminates_and_fills c6Db 1 "2025-01-01" [] 756 (by decide)).1,
   (claim_C6_terminates_and_fills c6Db 1 "2025-01-01" [] 756 (by decide)).2
     (by decide) (by decide)⟩

/-- C7: referral credited exactly once.  On a fresh registration with
a valid referral code, both registration routes credit the referrer
once (the hardcoded 100 on the standalone route, the configured
`referral_bonus_ksh` on `/api/auth/register`), and an immediately
repeated registration for the same identity is rejected by the
email/username uniqueness check with the store unchanged, so no
second credit can occur. -/
theorem claim_C7_referral_credited_once (db : Db) (req : RegisterReq)
    (myCode : String) (R : User) (hnodup : usersIdUnique db)
    (hfresh : db.users.find?
      (fun u => u.email == req.email || u.username == req.username) = none)
    (hfreshE : db.users.find? (fun u => u.email == req.email) = none)
    (hfreshU : db.users.find? (fun u => u.username == req.username) = none)
    (hck : (jsTrimStr req.referral_code == "") = false)
    (href : db.users.find?
      (fun u => u.referral_code == jsTrimStr req.referral_code) = some R)
    (hrb : 0 < getIntSetting db "referral_bonus_ksh" 100) :
    ((registerAuth db req myCode).1 = RegisterResult.ok (nextUserId db) ∧
      bonusOf (registerAuth db req myCode).2 R.id = bonusOf db R.id + 100 ∧
      (∀ myCode2, registerAuth (registerAuth db req myCode).2 req myCode2 =
        (RegisterResult.emailOrUsernameTaken, (registerAuth db req myCode).2))) ∧
    ((registerApi db req myCode).1 = RegisterResult.ok (nextUserId db) ∧
      bonusOf (registerApi db req myCode).2 R.id =
        bonusOf db R.id + getIntSetting db "referral_bonus_ksh" 100 ∧
      (∀ myCode2, registerApi (registerApi db req myCode).2 req myCode2 =
        (RegisterResult.emailTaken, (registerApi db req myCode).2))) :=
  ⟨registerAuth_credits_once db req myCode R hnodup hfresh hck href,
   registerApi_credits_once db req myCode R hnodup hfreshE hfreshU hck href hrb⟩

/-- C7 witness: bob registers with alice's code; her bonus becomes
100 on each route and the repeated attempt is rejected without a
second credit. -/
theorem claim_C7_witness :
    (registerAuth (wDbOf 0 0 []) wReqBob "BOB1").1 = RegisterResult.ok 2 ∧
    bonusOf (registerAuth (wDbOf 0 0 []) wReqBob "BOB1").2 1 = 100 ∧
    registerAuth (registerAuth (wDbOf 0 0 []) wReqBob "BOB1").2 wReqBob "BOB2" =
      (RegisterResult.emailOrUsernameTaken,
        (registerAuth (wDbOf 0 0 []) wReqBob "BOB1").2) ∧
    (registerApi (wDbOf 0 0 []) wReqBob "BOB1").1 = RegisterResult.ok 2 ∧
    bonusOf (registerApi (wDbOf 0 0 []) wReqBob "BOB1").2 1 = 100 ∧
    registerApi (registerApi (wDbOf 0 0 []) wReqBob "BOB1").2 wReqBob "BOB2" =
      (RegisterResult.emailTaken, (registerApi (wDbOf 0 0 []) wReqBob "BOB1").2) := by
  have h := claim_C7_referral_credited_once (wDbOf 0 0 []) wReqBob "BOB1" (wAliceB 0 0)
    (by unfold usersIdUnique; decide) (by decide) (by decide) (by decide)
    (by decide) (by decide) (by decide)
  exact ⟨h.1.1, h.1.2.1, h.1.2.2 "BOB2", h.2.1, h.2.2.1, h.2.2.2 "BOB2"⟩

/-- C8 counterexample: two strings differing only in a whitespace run
need NOT normalize to the same value.  A lone carriage return is a
whitespace run, yet `normalize` deletes every `\x0d` before the
whitespace collapse, so `"x\x0dy"` becomes `"xy"` while `"x y"` stays
`"x y"`. -/
theorem claim_C8_counterexample :
    isJsWS '\x0d' = true ∧ isJsWS ' ' = true ∧
    normalize ['x', '\x0d', 'y'] ≠ normalize ['x', ' ', 'y'] := by
  exact ⟨by decide, by decide, by decide⟩

/-- C8: amended normalization laws.  `normalize` is idempotent; two
strings that agree after quote straightening (in particular, strings
differing only in curly-versus-straight quotes) normalize to the same
value; and a whitespace run normalizes like a single space provided
the run contains at least one character other than a carriage return
(the carriage-return-only run is the exception the counterexample
exhibits). -/
theorem claim_C8_normalize_laws :
    (∀ s : List Char, normalize (normalize s) = normalize s) ∧
    (∀ s t : List Char,
      List.Forall₂ (fun a b => straightenChar a = straightenChar b) s t →
      normalize s = normalize t) ∧
    (∀ r x y : List Char, (∃ c ∈ r, (c == '\x0d') = false) →
      (∀ c ∈ r, isJsWS c = true) →
      normalize (x ++ r ++ y) = normalize (x ++ ' ' :: y)) :=
  ⟨normalize_idem,
   fun _ _ h => normalize_quotes h,
   fun _ x y hex hws => normalize_ws_run hex hws x y⟩

/-- C9: the answer-validity check runs first.  Whenever the trimmed
answer is shorter than two characters, `POST /api/tasks/:id/complete`
returns 400 "Answer is required" with the store unchanged — whatever
the task id, the assignment state or the completion state. -/
theorem claim_C9_invalid_answer_first (db : Db) (uid tid : Nat)
    (ans : List Char) (today : String) (failAt : Option (Fin 3))
    (h : (jsTrim ans).length < 2) :
    completeTask db uid tid ans today failAt =
      (ApiResult.err 400 "Answer is required", db) :=
  completeTask_invalid_first db uid tid ans today failAt h

/-- C9 witness: a one-letter answer to a task that does not even
exist still yields "Answer is required", not the assignment error. -/
theorem claim_C9_witness :
    completeTask (wDbOf 0 0 []) 1 5 [' ', 'x', ' '] "2025-01-01" none =
      (ApiResult.err 400 "Answer is required", wDbOf 0 0 []) :=
  claim_C9_invalid_answer_first (wDbOf 0 0 []) 1 5 [' ', 'x', ' ']
    "2025-01-01" none (by decide)

/-- C10: the admin override endpoints accept exactly the non-negative
integers (`z.number().int().min(0)`), so a stored balance or bonus
written by an override is a non-negative integer, and a negative or
fractional value is rejected with the store unchanged. -/
theorem claim_C10_admin_nonneg_override (db : Db) (uid : Nat) (v : ℚ) :
    (((adminSetBalance db uid v).1 = AdminResult.ok ↔ (v.den = 1 ∧ 0 ≤ v.num)) ∧
      ((v.den = 1 ∧ 0 ≤ v.num) →
        ∀ w ∈ (adminSetBalance db uid v).2.users, w.id = uid →
          w.balance_ksh = v.num ∧ 0 ≤ w.balance_ksh) ∧
      (¬(v.den = 1 ∧ 0 ≤ v.num) →
        adminSetBalance db uid v = (AdminResult.badRequest, db))) ∧
    (((adminSetBonus db uid v).1 = AdminResult.ok ↔ (v.den = 1 ∧ 0 ≤ v.num)) ∧
      ((v.den = 1 ∧ 0 ≤ v.num) →
        ∀ w ∈ (adminSetBonus db uid v).2.users, w.id = uid →
          w.bonus_ksh = v.num ∧ 0 ≤ w.bonus_ksh) ∧
      (¬(v.den = 1 ∧ 0 ≤ v.num) →
        adminSetBonus db uid v = (AdminResult.badRequest, db))) :=
  ⟨adminSetBalance_spec db uid v, adminSetBonus_spec db uid v⟩

end SGX
